import Mathlib

/-!
Verification of the isoform-collapsing core of pbtranscript
(`pbtranscript/collapsing/CollapsingUtils.py` and
`pbtranscript/filtering/FilteringUtils.py`), as a shallow embedding in Lean.

Conventions of the embedding:
* Python `int` is `Int`; Python strings are `String` (lists of chars where
  convenient); Python lists are `List`.
* Python indexing `l[i]` admits negative indices (which wrap around from the
  back); `pyGetD` reproduces this, returning a default on a genuinely
  out-of-range index (where Python would raise `IndexError`; every use below
  is argued, or proved, in range).
* Fallible Python code (functions that may `raise`) is embedded with
  `Except`/`Option` results.
-/

namespace PbTranscript

/-- A half-open genomic interval, with fields `start` and `stop` embedding the
Python attributes `.start` and `.end` of exon/segment objects. -/
structure Itv where
  start : Int
  stop : Int
  deriving DecidableEq, Repr

/-- Python `abs` on integers. -/
def pyAbs (x : Int) : Int := if x < 0 then -x else x

/-- Python list indexing `l[i]`: nonnegative indices from the front, negative
indices wrap from the back (`l[-1]` is the last element); `d` is returned on an
index Python would reject with `IndexError`. -/
def pyGetD (l : List α) (i : Int) (d : α) : α :=
  if 0 ≤ i then l.getD i.toNat d
  else if (-i).toNat ≤ l.length then l.getD (l.length - (-i).toNat) d
  else d

/-- Helper for `pySplit`: accumulates the current chunk (reversed) while
scanning. -/
def pySplitAux (sep : Char) : List Char → List Char → List (List Char)
  | [], acc => [acc.reverse]
  | c :: cs, acc =>
      if c = sep then acc.reverse :: pySplitAux sep cs []
      else pySplitAux sep cs (c :: acc)

/-- Python `s.split(sep)` for a single-character separator: splits at every
occurrence, keeping empty chunks; the result is always nonempty. -/
def pySplit (sep : Char) (s : List Char) : List (List Char) :=
  pySplitAux sep s []

/-- Digit-string parser: `some n` iff the list is nonempty and all digits. -/
def parseDigits : List Char → Option Nat
  | [] => none
  | [c] => if c.isDigit then some (c.toNat - '0'.toNat) else none
  | c :: cs =>
      if c.isDigit then
        (parseDigits cs).map (fun n => (c.toNat - '0'.toNat) * 10 ^ cs.length + n)
      else none

/-- Python `int(s)` on a string: an optional sign followed by at least one
digit (surrounding whitespace never occurs in the inputs considered here);
`none` embeds the `ValueError` Python raises. -/
def pyParseInt (s : List Char) : Option Int :=
  match s with
  | '-' :: rest => (parseDigits rest).map (fun n => -(n : Int))
  | '+' :: rest => (parseDigits rest).map (fun n => (n : Int))
  | _ => (parseDigits s).map (fun n => (n : Int))

/-- One member of `get_fl_from_id`: embeds
`int(_id.split('/')[1].split('p')[0][1:])` -- take the second `/`-field, its
prefix before the first `p`, drop that prefix's first character, parse as an
integer.  `none` embeds the `IndexError`/`ValueError` cases. -/
def flMemberParse (s : String) : Option Int := do
  let p1 ← (pySplit '/' s.data).get? 1
  let tok := (pySplit 'p' p1).headD []
  pyParseInt (tok.drop 1)

/-- Parses every member in order, failing at the first member whose token
does not parse (as the Python generator inside `sum` does). -/
def flParseAll : List String → Option (List Int)
  | [] => some []
  | m :: ms =>
      match flMemberParse m with
      | none => none
      | some v => (flParseAll ms).map (fun vs => v :: vs)

/-- Embeds `get_fl_from_id(members)` (CollapsingUtils.py, lines 586-593):
sums the per-member parses, re-raising any failure as a `ValueError` (the
Python message interpolates `members`; the embedding keeps a fixed text). -/
def get_fl_from_id (members : List String) : Except String Int :=
  match flParseAll members with
  | some vals => .ok vals.sum
  | none => .error "Could not get FL num"

theorem flMemberParse_token : flMemberParse "13cycle|i0HQ|c139597/f1p0/178" = some 1 := by decide

theorem flMemberParse_tokenless : flMemberParse "m/1/0_100" = none := by decide

theorem get_fl_from_id_single : get_fl_from_id ["a/f5p0/100"] = .ok 5 := by rfl

theorem get_fl_from_id_no_f_check : get_fl_from_id ["a/q5p1/z"] = .ok 5 := by rfl

/-! ## `transfrag_to_contig` (CollapsingUtils.py, lines 183-229) -/

/-- The sentinel magnitude `INTINF = 999999`. -/
def INTINF : Int := 999999

/-- One gmap SAM record, with the attributes `transfrag_to_contig` and
`exons_match_sam_record` read: query id, subject id, subject start/end,
strand (`r.flag.strand`), and the list of aligned segments. -/
structure GmapRecord where
  qID : String
  sID : String
  sStart : Int
  sEnd : Int
  strand : Char
  segments : List Itv
  deriving Repr

/-- The `ContiVec` struct (CollapsingUtils.py, lines 377-401): base coverage
and the two alternative-junction evidence arrays, all of one fixed size. -/
structure ContiVec where
  baseC : List Int
  altC_pos : List Int
  altC_neg : List Int
  deriving Repr, DecidableEq

/-- `ContiVec(size)`: three zero arrays of the given size. -/
def ContiVec.zero (size : Nat) : ContiVec :=
  { baseC := List.replicate size 0
    altC_pos := List.replicate size 0
    altC_neg := List.replicate size 0 }

/-- Embeds the numpy slice update `a[lo:hi] += v` (for the nonnegative slice
bounds arising here: slices clamp to the array). -/
def addRange (l : List Int) (lo hi v : Int) : List Int :=
  l.mapIdx (fun k x => if lo ≤ (k : Int) ∧ (k : Int) < hi then x + v else x)

/-- Embeds the numpy element update `a[i] += v` with Python index semantics
(negative `i` wraps from the back; a genuinely out-of-range index, which
Python rejects, leaves the array unchanged -- unreachable in the uses here). -/
def pyAddAt (l : List Int) (i v : Int) : List Int :=
  let j : Int := if 0 ≤ i then i else i + l.length
  l.mapIdx (fun k x => if (k : Int) = j then x + v else x)

/-- The guard of the `altC_neg` (segment-start) sentinel update in
`transfrag_to_contig` (lines 215-217), exactly as written in the source:
`(i != 0) or (i != len(r.segments)-1) or (i == 0 and (strand == '-' or not
skip_5_exon_alt)) or (i == len(r.segments)-1 and (strand == '+' or not
skip_5_exon_alt))` where `n = len(r.segments)`. -/
def altCNegGuard (i n : Nat) (strand : Char) (skip_5_exon_alt : Bool) : Bool :=
  (i != 0) || (i != n - 1) ||
    (i == 0 && (strand == '-' || !skip_5_exon_alt)) ||
    (i == n - 1 && (strand == '+' || !skip_5_exon_alt))

/-- The guard of the `altC_pos` (segment-end) sentinel update in
`transfrag_to_contig` (lines 225-227), exactly as written in the source. -/
def altCPosGuard (i n : Nat) (strand : Char) (skip_5_exon_alt : Bool) : Bool :=
  (i != 0) || (i != n - 1) ||
    (i == n - 1 && (strand == '-' || !skip_5_exon_alt)) ||
    (i == 0 && (strand == '+' || !skip_5_exon_alt))

/-- The boundary-hardness rule as the spec states it, for a segment START
boundary: hard unless it is the outermost boundary of the alignment (the
first segment's start), corresponds to the 5-prime end under the strand
(strand `+`), and `skip_5_exon_alt` is true.  Stated from the spec words,
for comparison with the guard the source actually computes. -/
def specHardStart (i : Nat) (strand : Char) (skip_5_exon_alt : Bool) : Bool :=
  !(i == 0 && strand == '+' && skip_5_exon_alt)

/-- The spec boundary-hardness rule for a segment END boundary: hard unless
it is the last segment's end, the strand is `-` (so it is the 5-prime end),
and `skip_5_exon_alt` is true. -/
def specHardEnd (i n : Nat) (strand : Char) (skip_5_exon_alt : Bool) : Bool :=
  !(i == n - 1 && strand == '-' && skip_5_exon_alt)

/-- The per-segment loop body of `transfrag_to_contig` (lines 204-228), run
over the enumerated segments of one record. -/
def fillSegments (offset : Int) (strand : Char) (skip_5_exon_alt : Bool)
    (n : Nat) : Nat → List Itv → ContiVec → ContiVec
  | _, [], cv => cv
  | i, e :: rest, cv =>
      let cv := { cv with baseC := addRange cv.baseC (e.start - offset) (e.stop - offset) 1 }
      let cv := if altCNegGuard i n strand skip_5_exon_alt then
          { cv with altC_neg := pyAddAt cv.altC_neg (e.start - offset) (-INTINF) }
        else cv
      let cv := if altCPosGuard i n strand skip_5_exon_alt then
          { cv with altC_pos := pyAddAt cv.altC_pos (e.stop - offset - 1) INTINF }
        else cv
      fillSegments offset strand skip_5_exon_alt n (i + 1) rest cv

/-- The result tuple of `transfrag_to_contig`: `contiVec, offset, chrom,
strand`. -/
structure TransfragOut where
  contiVec : ContiVec
  offset : Int
  chrom : String
  strand : Char
  deriving Repr

/-- Embeds `transfrag_to_contig(gmap_sam_records, skip_5_exon_alt)`
(CollapsingUtils.py, lines 185-229).  `none` embeds the failing
`assert len(records) > 0`. -/
def transfrag_to_contig (records : List GmapRecord)
    (skip_5_exon_alt : Bool := true) : Option TransfragOut :=
  match records with
  | [] => none
  | r0 :: _ =>
      let offset := r0.sStart
      let chrom := r0.sID
      let strand := r0.strand
      let chrom_size := ((records.map GmapRecord.sEnd).foldl max r0.sEnd) - offset
      let cv0 := ContiVec.zero chrom_size.toNat
      let cv := records.foldl
        (fun cv r => fillSegments offset strand skip_5_exon_alt
          r.segments.length 0 r.segments cv) cv0
      some { contiVec := cv, offset := offset, chrom := chrom, strand := strand }

/-- The sentinel guards of `transfrag_to_contig` are tautologies: for either
strand the leading `(i != 0) or (i != len(r.segments)-1)` disjunction can only
be false when `i = 0 = n-1`, in which case the two strand-specific disjuncts
cover both strands regardless of `skip_5_exon_alt`. -/
theorem altGuards_tauto (i n : Nat) (skip : Bool) :
    altCNegGuard i n '+' skip = true ∧ altCNegGuard i n '-' skip = true ∧
    altCPosGuard i n '+' skip = true ∧ altCPosGuard i n '-' skip = true := by
  unfold altCNegGuard altCPosGuard
  by_cases h0 : i = 0 <;> by_cases h1 : i = n - 1 <;> simp [h0, h1] <;> tauto

/-- C1: the claim states that the junction-evidence sentinel is applied at a
segment boundary exactly when the boundary is hard under the spec rule, and in
particular that with `skip_5_exon_alt` true no sentinel is subtracted from
`altC_neg` at the first segment's start on strand `+`.  The code disagrees:
its guards join `(i != 0)` and `(i != len-1)` with `or` (the in-source
comments describe an `and`-shaped rule), which makes both guards tautologies,
so the sentinel is applied at every boundary; on the two-segment `+`-strand
alignment with segments `[(1,3),(5,8)]` and `skip_5_exon_alt = True` the code
writes `-INTINF` into `altC_neg` at the first segment's start, although the
spec rule classifies that boundary as soft. -/
theorem C1_sentinel_always_applied :
    (∀ i n : Nat, ∀ skip : Bool,
      altCNegGuard i n '+' skip = true ∧ altCNegGuard i n '-' skip = true ∧
      altCPosGuard i n '+' skip = true ∧ altCPosGuard i n '-' skip = true) ∧
    (transfrag_to_contig [⟨"r1", "chr1", 1, 8, '+', [⟨1, 3⟩, ⟨5, 8⟩]⟩] true).map
      (fun o => pyGetD o.contiVec.altC_neg 0 0) = some (-999999) ∧
    specHardStart 0 '+' true = false := by
  refine ⟨fun i n skip => altGuards_tauto i n skip, by rfl, by decide⟩

/-- `flParseAll` fails exactly when some member fails to parse. -/
theorem flParseAll_eq_none_iff (l : List String) :
    flParseAll l = none ↔ ∃ a ∈ l, flMemberParse a = none := by
  induction l with
  | nil => simp [flParseAll]
  | cons a l ih =>
      cases h : flMemberParse a with
      | none => simp [flParseAll, h]
      | some b =>
          cases hl : flParseAll l with
          | none => simp [flParseAll, h, hl, ih.mp hl]
          | some bs => simp [flParseAll, h, hl, ← ih]

/-- On success, `flParseAll` returns the pointwise parses. -/
theorem flParseAll_eq_some_map (l : List String) (vals : List Int)
    (h : flParseAll l = some vals) :
    vals = l.map (fun a => (flMemberParse a).getD 0) := by
  induction l generalizing vals with
  | nil => simp [flParseAll] at h; simp [h.symm]
  | cons a l ih =>
      cases ha : flMemberParse a with
      | none => simp [flParseAll, ha] at h
      | some b =>
          cases hl : flParseAll l with
          | none => simp [flParseAll, ha, hl] at h
          | some bs =>
              simp [flParseAll, ha, hl] at h
              simp [← h, ha, ih bs hl]

/-- C7 counterexample: the claim says `get_fl_from_id(["m/1/0_100","m/2/0_50"])`
returns 2; in fact the second `/`-field of each id is `"1"` resp. `"2"`, whose
first character is dropped before integer parsing, leaving the empty string,
so the call raises `ValueError` and in particular does not return 2. -/
theorem C7_counterexample :
    ¬ (get_fl_from_id ["m/1/0_100", "m/2/0_50"] = Except.ok 2) := by
  intro h
  have h2 : (Except.error "Could not get FL num" : Except String Int) =
      Except.ok 2 := h
  exact Except.noConfusion h2

/-- C7 amended: on the member list `["m/1/0_100","m/2/0_50"]` (whose ids carry
no `f<N>p<M>` token) `get_fl_from_id` raises `ValueError` rather than
returning a count. -/
theorem C7_amended :
    get_fl_from_id ["m/1/0_100", "m/2/0_50"] =
      Except.error "Could not get FL num" := by rfl

/-- C8 counterexample: the claim says `get_fl_from_id` raises when a member's
`f<N>p<M>` token is absent or malformed.  The member `"a/q5p1/z"` contains no
`f` at all (so certainly no `f<N>p<M>` token), yet the call succeeds with 5:
the parser drops the first character of the pre-`p` field without checking
that it is `f`. -/
theorem C8_counterexample :
    get_fl_from_id ["a/q5p1/z"] = Except.ok 5 ∧
      ("a/q5p1/z".data.contains 'f') = false := ⟨by rfl, by decide⟩

/-- C8 amended: `get_fl_from_id` parses each member positionally -- second
`/`-field, prefix before the first `p`, first character dropped, remainder
parsed as an integer (`flMemberParse`) -- and raises `ValueError` exactly when
some member fails this positional parse; when every member parses, it returns
the sum of the parsed values (so a malformed token either fails loudly or
parses positionally; it is never silently replaced by zero). -/
theorem C8_positional_contract (members : List String) :
    (get_fl_from_id members = Except.error "Could not get FL num" ↔
      ∃ m ∈ members, flMemberParse m = none) ∧
    (get_fl_from_id members =
        Except.ok ((members.map (fun m => (flMemberParse m).getD 0)).sum) ↔
      ∀ m ∈ members, (flMemberParse m).isSome) := by
  constructor
  · cases h : flParseAll members with
    | none => simp [get_fl_from_id, h, (flParseAll_eq_none_iff members).mp h]
    | some vals =>
        simp only [get_fl_from_id, h]
        constructor
        · intro hx; exact Except.noConfusion hx
        · intro hx
          exact absurd h (by simp [(flParseAll_eq_none_iff members).mpr hx])
  · cases h : flParseAll members with
    | none =>
        simp only [get_fl_from_id, h]
        rcases (flParseAll_eq_none_iff members).mp h with ⟨m, hm, hmn⟩
        constructor
        · intro hx; exact Except.noConfusion hx
        · intro hx; exact absurd (hx m hm) (by simp [hmn])
    | some vals =>
        simp only [get_fl_from_id, h]
        constructor
        · intro _
          intro m hm
          by_contra hc
          have : flParseAll members = none :=
            (flParseAll_eq_none_iff members).mpr
              ⟨m, hm, Option.not_isSome_iff_eq_none.mp hc⟩
          simp [this] at h
        · intro _
          rw [flParseAll_eq_some_map members vals h]

/-! ## `compare_fuzzy_junctions` (CollapsingUtils.py, lines 490-583) -/

/-- Embeds `overlaps(s1, s2)` (line 490):
`max(0, min(s1.end, s2.end) - max(s1.start, s2.start)) > 0`. -/
def overlaps (s1 s2 : Itv) : Bool :=
  max 0 (min s1.stop s2.stop - max s1.start s2.start) > 0

/-- Python list access on an exon list, with `⟨0,0⟩` as the (unreachable)
out-of-range default. -/
def exAt (l : List Itv) (i : Int) : Itv := pyGetD l i ⟨0, 0⟩

/-- First index `≥ j` at which `x` overlaps an exon of the remaining list:
the inner `for j, y in enumerate(r2_exons)` scan of
`compare_fuzzy_junctions` in the `i = 0` case, where the
`if i > 0 and j > 0: break` guard never fires. -/
def firstOverlapIdx (x : Itv) : List Itv → Nat → Option Nat
  | [], _ => none
  | y :: ys, j => if overlaps x y then some j else firstOverlapIdx x ys (j + 1)

/-- The inner scan of the overlap search: for `i = 0` every `j` is examined
until the first overlap; for `i > 0` the guard `if i > 0 and j > 0: break`
stops the scan after `j = 0`. -/
def innerScan (x : Itv) (i : Nat) (r2 : List Itv) : Option Nat :=
  if i = 0 then firstOverlapIdx x r2 0
  else
    match r2 with
    | [] => none
    | y :: _ => if overlaps x y then some 0 else none

/-- The outer overlap-search loop of `compare_fuzzy_junctions`
(lines 517-527): returns the first `(i, j)` found, or `none`
(`found_overlap` stays false). -/
def scanR1 : List Itv → Nat → List Itv → Option (Nat × Nat)
  | [], _, _ => none
  | x :: xs, i, r2 =>
      match innerScan x i r2 with
      | some j => some (i, j)
      | none => scanR1 xs (i + 1) r2

/-- The junction-walking `while` loop of `compare_fuzzy_junctions`
(lines 549-554): starting from matched pair `(i, j)`, advances `k` while both
lists have a further exon, failing (`none`, the `partial` return) as soon as a
junction differs by more than `max_fuzzy_junction`; returns the final `k`
otherwise. -/
def walkLoop (r1 r2 : List Itv) (t : Int) (i j k : Nat) : Option Nat :=
  if i + k + 1 < r1.length ∧ j + k + 1 < r2.length then
    if pyAbs ((exAt r1 (i + k)).stop - (exAt r2 (j + k)).stop) > t ∨
        pyAbs ((exAt r1 (i + k + 1)).start - (exAt r2 (j + k + 1)).start) > t then
      none
    else walkLoop r1 r2 t i j (k + 1)
  else some k
termination_by r1.length - (i + k)
decreasing_by
  omega

/-- Embeds `compare_fuzzy_junctions(r1_exons, r2_exons, max_fuzzy_junction)`
(CollapsingUtils.py, lines 495-583), returning one of the strings
`"nomatch"`, `"exact"`, `"subset"`, `"super"`, `"partial"`, `"concordant"`.
The Python indices `i+k-1` and `j+k-1` in the `concordant` checks can be `-1`
(wrapping to the last exon); `exAt` reproduces this. -/
def compare_fuzzy_junctions (r1_exons r2_exons : List Itv)
    (max_fuzzy_junction : Int := 0) : String :=
  match scanR1 r1_exons 0 r2_exons with
  | none => "nomatch"
  | some (i, j) =>
      if r1_exons.length = 1 then
        if r2_exons.length = 1 then "exact"
        else if (exAt r1_exons 0).stop ≤ (exAt r2_exons j).stop then "subset"
        else "partial"
      else
        if r2_exons.length = 1 then "super"
        else
          match walkLoop r1_exons r2_exons max_fuzzy_junction i j 0 with
          | none => "partial"
          | some k =>
              if i + k + 1 = r1_exons.length then
                if j + k + 1 = r2_exons.length then
                  if i = 0 then (if j = 0 then "exact" else "subset")
                  else "super"
                else
                  if i = 0 then "subset"
                  else
                    if pyAbs ((exAt r1_exons ((i : Int) + k - 1)).stop -
                          (exAt r2_exons ((j : Int) + k - 1)).stop) > max_fuzzy_junction ∨
                        pyAbs ((exAt r1_exons ((i : Int) + k)).start -
                          (exAt r2_exons ((j : Int) + k)).start) > max_fuzzy_junction then
                      "partial"
                    else "concordant"
              else
                if j = 0 then "super"
                else
                  if pyAbs ((exAt r1_exons ((i : Int) + k - 1)).stop -
                        (exAt r2_exons ((j : Int) + k - 1)).stop) > max_fuzzy_junction ∨
                      pyAbs ((exAt r1_exons ((i : Int) + k)).start -
                        (exAt r2_exons ((j : Int) + k)).start) > max_fuzzy_junction then
                    "partial"
                  else "concordant"

/-- A collapsed transcript record as read back by `collapse_fuzzy_junctions`
and the filtering utilities: id, strand, genomic span and exon chain (the
attributes `r.seqid`, `r.strand`, `r.start`, `r.end`, `r.ref_exons`). -/
structure CollapseRecord where
  seqid : String
  strand : Char
  start : Int
  stop : Int
  ref_exons : List Itv
  deriving Repr, DecidableEq

/-- Embeds `can_merge(m, r1, r2, allow_extra_5exon, max_fuzzy_junction)`
(CollapsingUtils.py, lines 596-621). -/
def can_merge (m : String) (r1 r2 : CollapseRecord)
    (allow_extra_5exon : Bool) (max_fuzzy_junction : Int) : Bool :=
  if m = "exact" then true
  else if !allow_extra_5exon then false
  else
    let (r1, r2) := if m = "subset" then (r2, r1) else (r1, r2)
    if m = "super" ∨ m = "subset" then
      let n2 : Int := r2.ref_exons.length
      if r1.strand = '+' then
        pyAbs ((exAt r1.ref_exons (-1)).start - (exAt r2.ref_exons (-1)).start)
            ≤ max_fuzzy_junction &&
          ((exAt r1.ref_exons (-n2)).start ≤ (exAt r2.ref_exons 0).start &&
            (exAt r2.ref_exons 0).start < (exAt r1.ref_exons (-n2)).stop)
      else
        pyAbs ((exAt r1.ref_exons 0).stop - (exAt r2.ref_exons 0).stop)
            ≤ max_fuzzy_junction &&
          ((exAt r1.ref_exons (n2 - 1)).start ≤ (exAt r2.ref_exons (-1)).stop &&
            (exAt r2.ref_exons (-1)).stop < (exAt r1.ref_exons n2).stop)
    else false

/-- The merge condition as the C5 claim states it, following the spec words:
for `subset`/`super` (with the pair rotated so `rl` is the longer model), the
two models agree on their 3-prime-most exon boundary within tolerance, and
the shorter model's 5-prime-most exon start (given strand) falls strictly
within the span of the longer model's exon that aligns with it.  On strand
`+` the 5-prime start of the shorter model is its first exon's `start` and
the aligned exon is `rl.ref_exons[-n2]`; on strand `-` it is its last exon's
`stop` and the aligned exon is `rl.ref_exons[n2-1]`. -/
def canMergeClaim (m : String) (r1 r2 : CollapseRecord)
    (allow_extra_5exon : Bool) (max_fuzzy_junction : Int) : Bool :=
  if m = "exact" then true
  else if !allow_extra_5exon then false
  else
    let (rl, rs) := if m = "subset" then (r2, r1) else (r1, r2)
    if m = "super" ∨ m = "subset" then
      let n2 : Int := rs.ref_exons.length
      if rl.strand = '+' then
        pyAbs ((exAt rl.ref_exons (-1)).stop - (exAt rs.ref_exons (-1)).stop)
            ≤ max_fuzzy_junction &&
          ((exAt rl.ref_exons (-n2)).start ≤ (exAt rs.ref_exons 0).start &&
            (exAt rs.ref_exons 0).start < (exAt rl.ref_exons (-n2)).stop)
      else
        pyAbs ((exAt rl.ref_exons 0).start - (exAt rs.ref_exons 0).start)
            ≤ max_fuzzy_junction &&
          ((exAt rl.ref_exons (n2 - 1)).start ≤ (exAt rs.ref_exons (-1)).stop &&
            (exAt rs.ref_exons (-1)).stop < (exAt rl.ref_exons (n2 - 1)).stop)
    else false

/-- C5 counterexample: on strand `-`, for the superset pair with
`r1.ref_exons = [(0,10),(20,30),(40,50)]` and `r2.ref_exons =
[(0,10),(32,35)]` and tolerance 0, `can_merge` returns true although the
shorter model's 5-prime exon boundary (32 or 35, under either genomic
reading) does not fall within the span `[20,30)` of the longer model's
aligned exon `ref_exons[1]`: the source bounds the check above by
`r1.ref_exons[n2].end` (the exon after the aligned one) instead of the
aligned exon's own end, so the stated iff fails here. -/
theorem C5_counterexample :
    can_merge "super" ⟨"A", '-', 0, 50, [⟨0, 10⟩, ⟨20, 30⟩, ⟨40, 50⟩]⟩
        ⟨"B", '-', 0, 35, [⟨0, 10⟩, ⟨32, 35⟩]⟩ true 0 = true ∧
      canMergeClaim "super" ⟨"A", '-', 0, 50, [⟨0, 10⟩, ⟨20, 30⟩, ⟨40, 50⟩]⟩
        ⟨"B", '-', 0, 35, [⟨0, 10⟩, ⟨32, 35⟩]⟩ true 0 = false := by
  constructor <;> rfl

/-- The condition `can_merge` actually enforces for a `super`/`subset` pair
`(rl, rs)` with `rl` the longer model: on strand `+`, the last exons' START
coordinates (the 3-prime acceptor junction) agree within tolerance and
`rs`'s first exon start lies in `[rl.ref_exons[-n2].start,
rl.ref_exons[-n2].end)`; on strand `-`, the first exons' END coordinates
agree within tolerance and `rs`'s last exon end lies in
`[rl.ref_exons[n2-1].start, rl.ref_exons[n2].end)` -- the upper bound being
the end of the exon FOLLOWING the aligned one. -/
def canMergeCodeCond (rl rs : CollapseRecord) (t : Int) : Prop :=
  let n2 : Int := rs.ref_exons.length
  if rl.strand = '+' then
    pyAbs ((exAt rl.ref_exons (-1)).start - (exAt rs.ref_exons (-1)).start) ≤ t ∧
      (exAt rl.ref_exons (-n2)).start ≤ (exAt rs.ref_exons 0).start ∧
      (exAt rs.ref_exons 0).start < (exAt rl.ref_exons (-n2)).stop
  else
    pyAbs ((exAt rl.ref_exons 0).stop - (exAt rs.ref_exons 0).stop) ≤ t ∧
      (exAt rl.ref_exons (n2 - 1)).start ≤ (exAt rs.ref_exons (-1)).stop ∧
      (exAt rs.ref_exons (-1)).stop < (exAt rl.ref_exons n2).stop

/-- C5 amended: `can_merge` returns true iff the relation is `exact`, or
`allow_extra_5exon` is set, the relation is `super` or `subset` (never
`partial`, `nomatch` or `concordant`), and the rotated pair (longer model
first) satisfies `canMergeCodeCond`: last-junction agreement within
tolerance plus the code's actual sandwich bounds (which on strand `-` extend
to the end of the exon after the aligned one). -/
theorem C5_can_merge_characterization (m : String) (r1 r2 : CollapseRecord)
    (allow_extra_5exon : Bool) (max_fuzzy_junction : Int) :
    can_merge m r1 r2 allow_extra_5exon max_fuzzy_junction = true ↔
      (m = "exact" ∨
        (allow_extra_5exon = true ∧ m = "super" ∧
          canMergeCodeCond r1 r2 max_fuzzy_junction) ∨
        (allow_extra_5exon = true ∧ m = "subset" ∧
          canMergeCodeCond r2 r1 max_fuzzy_junction)) := by
  by_cases he : m = "exact" <;>
    by_cases hsup : m = "super" <;>
      by_cases hsub : m = "subset" <;>
        cases allow_extra_5exon <;>
          simp [can_merge, canMergeCodeCond, he, hsup, hsub]

/-! ### Facts about the overlap search and the junction walk -/

theorem overlaps_comm (x y : Itv) : overlaps x y = overlaps y x := by
  unfold overlaps
  rw [min_comm x.stop y.stop, max_comm x.start y.start]

theorem overlaps_eq_true_iff (x y : Itv) :
    overlaps x y = true ↔ max x.start y.start < min x.stop y.stop := by
  unfold overlaps
  rw [decide_eq_true_eq, gt_iff_lt, lt_max_iff]
  constructor
  · rintro (h | h)
    · exact absurd h (lt_irrefl 0)
    · exact sub_pos.mp h
  · intro h
    exact Or.inr (sub_pos.mpr h)

theorem overlaps_eq_false_iff (x y : Itv) :
    overlaps x y = false ↔ min x.stop y.stop ≤ max x.start y.start := by
  rw [← Bool.not_eq_true, overlaps_eq_true_iff, not_lt]

theorem pyAbs_sub_comm (x y : Int) : pyAbs (x - y) = pyAbs (y - x) := by
  unfold pyAbs
  by_cases h1 : x - y < 0 <;> by_cases h2 : y - x < 0 <;>
    simp [h1, h2] <;> omega

theorem exAt_cons_zero (y : Itv) (ys : List Itv) : exAt (y :: ys) 0 = y := rfl

theorem exAt_cons_succ (y : Itv) (ys : List Itv) (n : Nat) :
    exAt (y :: ys) ((n : Int) + 1) = exAt ys n := by
  rw [(by omega : ((n : Int) + 1) = ((n + 1 : Nat) : Int))]
  unfold exAt pyGetD
  rw [if_pos (by omega : (0:Int) ≤ ((n + 1 : Nat) : Int)),
      if_pos (by omega : (0:Int) ≤ ((n : Nat) : Int)),
      Int.toNat_natCast, Int.toNat_natCast]
  simp

theorem exAt_eq_get (l : List Itv) (n : Nat) (h : n < l.length) :
    exAt l n = l.get ⟨n, h⟩ := by
  simp only [exAt, pyGetD, if_pos (by omega : (0:Int) ≤ ((n:Nat):Int)),
    Int.toNat_natCast]
  rw [List.getD_eq_getElem _ _ h]
  simp

theorem exAt_mem (l : List Itv) (n : Nat) (h : n < l.length) :
    exAt l n ∈ l := by
  rw [exAt_eq_get l n h]
  exact List.get_mem l n h

/-- Consecutive intervals of the list are nonoverlapping and in order: each
ends no later than the next starts. -/
def pairwiseAdj : List Itv → Prop
  | [] => True
  | [_] => True
  | a :: b :: rest => a.stop ≤ b.start ∧ pairwiseAdj (b :: rest)

/-- Decision procedure for `pairwiseAdj`, by structural recursion. -/
def decPairwiseAdj : (l : List Itv) → Decidable (pairwiseAdj l)
  | [] => isTrue trivial
  | [_] => isTrue trivial
  | _ :: b :: rest =>
      @instDecidableAnd _ _ _ (decPairwiseAdj (b :: rest))

instance (l : List Itv) : Decidable (pairwiseAdj l) := decPairwiseAdj l

theorem pairwiseAdj_iff_chain' (l : List Itv) :
    pairwiseAdj l ↔ l.Chain' (fun a b => a.stop ≤ b.start) := by
  induction l with
  | nil => simp [pairwiseAdj]
  | cons a l ih =>
      cases l with
      | nil => simp [pairwiseAdj]
      | cons b rest =>
          rw [List.chain'_cons, pairwiseAdj]
          exact and_congr Iff.rfl ih

/-- The well-formedness of an exon chain: every exon is nonempty and
consecutive exons do not overlap (each ends no later than the next starts). -/
def wfChain (l : List Itv) : Prop :=
  (∀ e ∈ l, e.start < e.stop) ∧ pairwiseAdj l

instance (l : List Itv) : Decidable (wfChain l) :=
  inferInstanceAs (Decidable ((∀ e ∈ l, e.start < e.stop) ∧ pairwiseAdj l))

/-- In a well-formed chain, an earlier exon ends no later than a later exon
starts. -/
theorem chain_stop_le_start (l : List Itv) (h : wfChain l) (a b : Nat)
    (hab : a < b) (hb : b < l.length) :
    (exAt l a).stop ≤ (exAt l b).start := by
  haveI : IsTrans Itv (fun p q => p.stop ≤ q.start ∧ p.start < p.stop ∧ q.start < q.stop) :=
    ⟨fun p q r hpq hqr =>
      ⟨le_trans hpq.1 (le_trans (le_of_lt hpq.2.2) hqr.1), hpq.2.1, hqr.2.2⟩⟩
  have hch := (pairwiseAdj_iff_chain' l).mp h.2
  have hpw : l.Pairwise (fun p q => p.stop ≤ q.start ∧ p.start < p.stop ∧ q.start < q.stop) := by
    rw [← List.chain'_iff_pairwise, List.chain'_iff_get]
    intro i hi
    have hc := List.chain'_iff_get.mp hch i hi
    exact ⟨hc, h.1 _ (List.get_mem _ _ _), h.1 _ (List.get_mem _ _ _)⟩
  have ha : a < l.length := lt_trans hab hb
  rw [exAt_eq_get l a ha, exAt_eq_get l b hb]
  exact (List.pairwise_iff_get.mp hpw ⟨a, ha⟩ ⟨b, hb⟩ hab).1

/-- Characterization of a successful `firstOverlapIdx` scan: the returned
index is the offset of the first overlapping exon. -/
theorem firstOverlapIdx_spec (x : Itv) :
    ∀ (l : List Itv) (base j : Nat), firstOverlapIdx x l base = some j →
      ∃ m, j = base + m ∧ m < l.length ∧ overlaps x (exAt l m) = true ∧
        ∀ m' < m, overlaps x (exAt l m') = false := by
  intro l
  induction l with
  | nil => intro base j h; exact absurd h (by simp [firstOverlapIdx])
  | cons y ys ih =>
      intro base j h
      unfold firstOverlapIdx at h
      by_cases hov : overlaps x y
      · rw [if_pos hov, Option.some_inj] at h
        exact ⟨0, by omega, by simp, by simpa [exAt_cons_zero], by omega⟩
      · rw [if_neg hov] at h
        rcases ih (base + 1) j h with ⟨m, hm, hlen, hovm, hmin⟩
        refine ⟨m + 1, by omega, by simp; omega, ?_, ?_⟩
        · rw [(by omega : ((m + 1 : Nat) : Int) = ((m : Int) + 1)), exAt_cons_succ]
          exact hovm
        · intro m' hm'
          match m' with
          | 0 => simpa [exAt_cons_zero] using (Bool.not_eq_true _).mp hov
          | m' + 1 =>
              rw [(by omega : ((m' + 1 : Nat) : Int) = ((m' : Int) + 1)), exAt_cons_succ]
              exact hmin m' (by omega)

/-- A `firstOverlapIdx` scan over a list with no overlapping exon fails. -/
theorem firstOverlapIdx_eq_none (x : Itv) :
    ∀ (l : List Itv) (base : Nat), (∀ y ∈ l, overlaps x y = false) →
      firstOverlapIdx x l base = none := by
  intro l
  induction l with
  | nil => intro base _; rfl
  | cons y ys ih =>
      intro base hno
      unfold firstOverlapIdx
      rw [if_neg (by simp [hno y (by simp)])]
      exact ih (base + 1) (fun z hz => hno z (List.mem_cons_of_mem y hz))

/-- The inner scan over a singleton candidate list only ever examines its
head, for every row index. -/
theorem innerScan_singleton (x b : Itv) (i : Nat) :
    innerScan x i [b] = if overlaps x b then some 0 else none := by
  unfold innerScan
  by_cases hi : i = 0
  · rw [if_pos hi]
    unfold firstOverlapIdx
    by_cases hov : overlaps x b <;> simp [hov, firstOverlapIdx]
  · rw [if_neg hi]

/-- Characterization of a successful outer overlap scan. -/
theorem scanR1_spec :
    ∀ (l : List Itv) (s : Nat) (r2 : List Itv) (i j : Nat),
      scanR1 l s r2 = some (i, j) →
      ∃ m, i = s + m ∧ m < l.length ∧ innerScan (exAt l m) (s + m) r2 = some j ∧
        ∀ m' < m, innerScan (exAt l m') (s + m') r2 = none := by
  intro l
  induction l with
  | nil => intro s r2 i j h; exact absurd h (by simp [scanR1])
  | cons x xs ih =>
      intro s r2 i j h
      unfold scanR1 at h
      cases hin : innerScan x s r2 with
      | some j0 =>
          rw [hin] at h
          simp only [Option.some_inj, Prod.mk.injEq] at h
          exact ⟨0, by omega, by simp,
            by simpa [exAt_cons_zero, h.1.symm, h.2.symm] using hin, by omega⟩
      | none =>
          rw [hin] at h
          rcases ih (s + 1) r2 i j h with ⟨m, hm, hlen, hscan, hmin⟩
          refine ⟨m + 1, by omega, by simp; omega, ?_, ?_⟩
          · rw [(by omega : ((m + 1 : Nat) : Int) = ((m : Int) + 1)), exAt_cons_succ,
              (by omega : s + (m + 1) = s + 1 + m)]
            exact hscan
          · intro m' hm'
            match m' with
            | 0 => simpa [exAt_cons_zero] using hin
            | m' + 1 =>
                rw [(by omega : ((m' + 1 : Nat) : Int) = ((m' : Int) + 1)), exAt_cons_succ,
                  (by omega : s + (m' + 1) = s + 1 + m')]
                exact hmin m' (by omega)

/-- Conversely, the outer scan returns the first row whose inner scan
succeeds. -/
theorem scanR1_intro :
    ∀ (l : List Itv) (s : Nat) (r2 : List Itv) (m j : Nat), m < l.length →
      innerScan (exAt l m) (s + m) r2 = some j →
      (∀ m' < m, innerScan (exAt l m') (s + m') r2 = none) →
      scanR1 l s r2 = some (s + m, j) := by
  intro l
  induction l with
  | nil => intro s r2 m j hm _ _; exact absurd hm (by simp)
  | cons x xs ih =>
      intro s r2 m j hm hscan hmin
      unfold scanR1
      match m with
      | 0 =>
          rw [show innerScan x s r2 = some j by
            simpa [exAt_cons_zero] using hscan]
          simp
      | m + 1 =>
          rw [show innerScan x s r2 = none by
            simpa [exAt_cons_zero] using hmin 0 (by omega)]
          rw [(by omega : s + (m + 1) = s + 1 + m)]
          refine ih (s + 1) r2 m j (by simpa using hm) ?_ ?_
          · rw [← (by omega : s + (m + 1) = s + 1 + m)]
            rw [show exAt xs m = exAt (x :: xs) ((m + 1 : Nat) : Int) by
              rw [(by omega : ((m + 1 : Nat) : Int) = ((m : Int) + 1)), exAt_cons_succ]]
            exact hscan
          · intro m' hm'
            rw [← (by omega : s + (m' + 1) = s + 1 + m')]
            rw [show exAt xs m' = exAt (x :: xs) ((m' + 1 : Nat) : Int) by
              rw [(by omega : ((m' + 1 : Nat) : Int) = ((m' : Int) + 1)), exAt_cons_succ]]
            exact hmin (m' + 1) (by omega)

/-- The junction walk is symmetric in its two exon lists: the loop bounds and
the tolerance checks swap roles exactly. -/
theorem walkLoop_comm_aux (t : Int) :
    ∀ (fuel : Nat) (r1 r2 : List Itv) (i j k : Nat), r1.length ≤ fuel + (i + k) →
      walkLoop r1 r2 t i j k = walkLoop r2 r1 t j i k := by
  intro fuel
  induction fuel with
  | zero =>
      intro r1 r2 i j k h
      rw [walkLoop]
      conv_rhs => rw [walkLoop]
      rw [if_neg (by omega : ¬(i + k + 1 < r1.length ∧ j + k + 1 < r2.length)),
        if_neg (by omega : ¬(j + k + 1 < r2.length ∧ i + k + 1 < r1.length))]
  | succ n ih =>
      intro r1 r2 i j k h
      rw [walkLoop]
      conv_rhs => rw [walkLoop]
      by_cases hc : i + k + 1 < r1.length ∧ j + k + 1 < r2.length
      · rw [if_pos hc, if_pos (And.intro hc.2 hc.1)]
        rw [pyAbs_sub_comm ((exAt r2 ((j:Int) + k)).stop) ((exAt r1 ((i:Int) + k)).stop),
          pyAbs_sub_comm ((exAt r2 ((j:Int) + k + 1)).start) ((exAt r1 ((i:Int) + k + 1)).start)]
        by_cases hp : pyAbs ((exAt r1 ((i:Int) + k)).stop - (exAt r2 ((j:Int) + k)).stop) > t ∨
            pyAbs ((exAt r1 ((i:Int) + k + 1)).start - (exAt r2 ((j:Int) + k + 1)).start) > t
        · rw [if_pos hp, if_pos hp]
        · rw [if_neg hp, if_neg hp]
          exact ih r1 r2 i j (k + 1) (by omega)
      · rw [if_neg hc, if_neg (by tauto : ¬(j + k + 1 < r2.length ∧ i + k + 1 < r1.length))]

/-- The junction walk is symmetric in its two exon lists. -/
theorem walkLoop_comm (r1 r2 : List Itv) (t : Int) (i j k : Nat) :
    walkLoop r1 r2 t i j k = walkLoop r2 r1 t j i k :=
  walkLoop_comm_aux t r1.length r1 r2 i j k (by omega)

/-- If some exon of `A` overlaps `b`, the outer scan of `A` against the
singleton list `[b]` succeeds (and the column index is 0). -/
theorem scanR1_singleton_exists (b : Itv) :
    ∀ (A : List Itv) (s J : Nat), J < A.length →
      overlaps (exAt A J) b = true →
      ∃ i0, scanR1 A s [b] = some (i0, 0) := by
  intro A
  induction A with
  | nil => intro s J hJ _; simp at hJ
  | cons a as ih =>
      intro s J hJ hov
      unfold scanR1
      rw [innerScan_singleton]
      by_cases hab : overlaps a b
      · rw [if_pos hab]
        exact ⟨s, rfl⟩
      · rw [if_neg hab]
        match J with
        | 0 =>
            rw [Nat.cast_zero, exAt_cons_zero] at hov
            exact absurd hov (by simp [hab])
        | J + 1 =>
            rw [(by omega : ((J + 1 : Nat) : Int) = ((J : Int) + 1)),
              exAt_cons_succ] at hov
            exact ih (s + 1) J (by simpa using hJ) hov

/-- The core of the `subset`-to-`super` symmetry: if the scan of `B` against
`A` found its first overlap at `(0, j)`, then for well-formed chains the scan
of `A` against `B` finds its first overlap at `(j, 0)`. -/
theorem scanR1_swap_of_first_row (A B : List Itv) (j : Nat)
    (hwA : wfChain A) (hwB : wfChain B)
    (hBne : 0 < B.length) (hAne : 0 < A.length) (hjA : j < A.length)
    (hovJ : overlaps (exAt B 0) (exAt A j) = true)
    (hminJ : ∀ m' < j, overlaps (exAt B 0) (exAt A m') = false) :
    scanR1 A 0 B = some (j, 0) := by
  by_cases hj0 : j = 0
  · subst hj0
    have hin : innerScan (exAt A 0) 0 B = some 0 := by
      unfold innerScan
      rw [if_pos rfl]
      cases B with
      | nil => simp at hBne
      | cons b bs =>
          unfold firstOverlapIdx
          rw [if_pos (by rw [overlaps_comm]; simpa [exAt_cons_zero] using hovJ)]
    simpa using scanR1_intro A 0 B 0 0 hjA (by simpa using hin) (by omega)
  · have hA0wf : (exAt A 0).start < (exAt A 0).stop :=
      hwA.1 _ (exAt_mem A 0 hAne)
    have hB0wf : (exAt B 0).start < (exAt B 0).stop :=
      hwB.1 _ (exAt_mem B 0 hBne)
    have hb0a0 : overlaps (exAt B 0) (exAt A 0) = false := hminJ 0 (by omega)
    have hchainA : (exAt A 0).stop ≤ (exAt A j).start :=
      chain_stop_le_start A hwA 0 j (by omega) hjA
    have htrue := (overlaps_eq_true_iff _ _).mp hovJ
    have hfalse := (overlaps_eq_false_iff _ _).mp hb0a0
    have hAJB0 : (exAt A j).start < (exAt B 0).stop :=
      lt_of_le_of_lt (le_max_right _ _) (lt_of_lt_of_le htrue (min_le_left _ _))
    have hkey : (exAt A 0).stop ≤ (exAt B 0).start := by
      rw [min_eq_right (le_of_lt (lt_of_le_of_lt hchainA hAJB0))] at hfalse
      rcases le_max_iff.mp hfalse with h | h
      · exact h
      · exact absurd h (not_le.mpr hA0wf)
    have hrow0 : ∀ y ∈ B, overlaps (exAt A 0) y = false := by
      intro y hy
      rcases List.mem_iff_get.mp hy with ⟨⟨n, hn⟩, hgy⟩
      have hyx : y = exAt B n := by rw [exAt_eq_get B n hn]; exact hgy.symm
      rw [hyx]
      match n, hn with
      | 0, _ =>
          rw [Nat.cast_zero, overlaps_comm]
          exact hb0a0
      | n + 1, hn =>
          apply (overlaps_eq_false_iff _ _).mpr
          have hchainB : (exAt B 0).stop ≤ (exAt B (n + 1)).start :=
            chain_stop_le_start B hwB 0 (n + 1) (by omega) hn
          calc min (exAt A 0).stop (exAt B (n + 1)).stop
              ≤ (exAt A 0).stop := min_le_left _ _
            _ ≤ (exAt B 0).start := hkey
            _ ≤ (exAt B 0).stop := le_of_lt hB0wf
            _ ≤ (exAt B (n + 1)).start := hchainB
            _ ≤ max (exAt A 0).start (exAt B (n + 1)).start := le_max_right _ _
    have hstep : ∀ m' < j, innerScan (exAt A m') (0 + m') B = none := by
      intro m' hm'
      rw [Nat.zero_add]
      by_cases hm0 : m' = 0
      · subst hm0
        unfold innerScan
        rw [if_pos rfl]
        exact firstOverlapIdx_eq_none _ B 0 hrow0
      · unfold innerScan
        rw [if_neg hm0]
        cases B with
        | nil => simp at hBne
        | cons b bs =>
            show (if overlaps (exAt A (m' : Int)) b = true then some 0 else none) = none
            rw [if_neg (by
              rw [overlaps_comm]
              simpa [exAt_cons_zero] using (by simp [hminJ m' hm'] :
                ¬ overlaps (exAt (b :: bs) 0) (exAt A m') = true))]
    have hhit : innerScan (exAt A j) (0 + j) B = some 0 := by
      rw [Nat.zero_add]
      unfold innerScan
      rw [if_neg hj0]
      cases B with
      | nil => simp at hBne
      | cons b bs =>
          show (if overlaps (exAt A (j : Int)) b = true then some 0 else none) = some 0
          rw [if_pos (by rw [overlaps_comm]; simpa [exAt_cons_zero] using hovJ)]
    simpa using scanR1_intro A 0 B j 0 hjA hhit hstep

/-- C4 counterexample: `compare_fuzzy_junctions` is not symmetric up to
swapping `super` and `subset`: for `A = [(0,10),(20,30)]`, `B = [(5,15)]` and
tolerance 0, `compare(A,B)` is `super` (a multi-exon list against a single
overlapping exon is classified `super` unconditionally) while `compare(B,A)`
is `partial` (the single-exon case additionally requires the single exon to
end within the matched exon, and `15 > 10`). -/
theorem C4_counterexample :
    compare_fuzzy_junctions [⟨0, 10⟩, ⟨20, 30⟩] [⟨5, 15⟩] 0 = "super" ∧
      compare_fuzzy_junctions [⟨5, 15⟩] [⟨0, 10⟩, ⟨20, 30⟩] 0 = "partial" := by
  constructor <;> rfl

/-- C4 amended: for well-formed exon chains (nonempty exons, consecutive
exons nonoverlapping) the surviving direction of the claimed equivalence
holds: whenever `compare_fuzzy_junctions(B, A, t)` returns `subset`,
`compare_fuzzy_junctions(A, B, t)` returns `super`.  (The converse fails,
see the counterexample: `super` of a multi-exon list over a single exon
does not require the containment that `subset` requires.) -/
theorem C4_subset_implies_super (A B : List Itv) (t : Int)
    (hwA : wfChain A) (hwB : wfChain B)
    (hsub : compare_fuzzy_junctions B A t = "subset") :
    compare_fuzzy_junctions A B t = "super" := by
  unfold compare_fuzzy_junctions at hsub
  cases hscan : scanR1 B 0 A with
  | none => simp only [hscan] at hsub; exact absurd hsub (by decide)
  | some p =>
      obtain ⟨i, j⟩ := p
      simp only [hscan] at hsub
      rcases scanR1_spec B 0 A i j hscan with ⟨m, him, hmB, hinner, hminI⟩
      by_cases hB1 : B.length = 1
      · rw [if_pos hB1] at hsub
        by_cases hA1 : A.length = 1
        · rw [if_pos hA1] at hsub; exact absurd hsub (by decide)
        · rw [if_neg hA1] at hsub
          have hm0 : m = 0 := by omega
          have hin0 : innerScan (exAt B 0) 0 A = some j := by
            rw [hm0] at hinner
            simpa using hinner
          have hfo : firstOverlapIdx (exAt B 0) A 0 = some j := by
            unfold innerScan at hin0
            simpa using hin0
          rcases firstOverlapIdx_spec (exAt B 0) A 0 j hfo with
            ⟨m2, hm2, hm2len, hov, _⟩
          have hj2 : m2 = j := by omega
          subst hj2
          cases B with
          | nil => simp at hB1
          | cons b bs =>
              have hbs : bs = [] := by simpa using hB1
              subst hbs
              have hov' : overlaps (exAt A m2) b = true := by
                rw [overlaps_comm]
                simpa [exAt_cons_zero] using hov
              rcases scanR1_singleton_exists b A 0 m2 hm2len hov' with ⟨i0, hAB⟩
              unfold compare_fuzzy_junctions
              simp only [hAB]
              rw [if_neg hA1]
              simp
      · rw [if_neg hB1] at hsub
        by_cases hA1 : A.length = 1
        · rw [if_pos hA1] at hsub; exact absurd hsub (by decide)
        · rw [if_neg hA1] at hsub
          cases hwalk : walkLoop B A t i j 0 with
          | none => simp only [hwalk] at hsub; exact absurd hsub (by decide)
          | some k =>
              simp only [hwalk] at hsub
              by_cases hb1 : i + k + 1 = B.length
              · rw [if_pos hb1] at hsub
                by_cases hb2 : j + k + 1 = A.length
                · rw [if_pos hb2] at hsub
                  by_cases hi0 : i = 0
                  · rw [if_pos hi0] at hsub
                    by_cases hj0 : j = 0
                    · rw [if_pos hj0] at hsub; exact absurd hsub (by decide)
                    · rw [if_neg hj0] at hsub
                      subst hi0
                      have hm0 : m = 0 := by omega
                      have hin0 : innerScan (exAt B 0) 0 A = some j := by
                        rw [hm0] at hinner
                        simpa using hinner
                      have hfo : firstOverlapIdx (exAt B 0) A 0 = some j := by
                        unfold innerScan at hin0
                        simpa using hin0
                      rcases firstOverlapIdx_spec (exAt B 0) A 0 j hfo with
                        ⟨m2, hm2, hm2len, hov, hmin⟩
                      have hj2 : m2 = j := by omega
                      subst hj2
                      have hswap := scanR1_swap_of_first_row A B m2 hwA hwB
                        (by omega) (by omega) hm2len hov hmin
                      unfold compare_fuzzy_junctions
                      simp only [hswap]
                      rw [if_neg hA1, if_neg hB1, walkLoop_comm]
                      simp only [hwalk]
                      rw [if_pos hb2, if_pos hb1, if_neg hj0]
                  · rw [if_neg hi0] at hsub; exact absurd hsub (by decide)
                · rw [if_neg hb2] at hsub
                  by_cases hi0 : i = 0
                  · rw [if_pos hi0] at hsub
                    subst hi0
                    have hm0 : m = 0 := by omega
                    have hin0 : innerScan (exAt B 0) 0 A = some j := by
                      rw [hm0] at hinner
                      simpa using hinner
                    have hfo : firstOverlapIdx (exAt B 0) A 0 = some j := by
                      unfold innerScan at hin0
                      simpa using hin0
                    rcases firstOverlapIdx_spec (exAt B 0) A 0 j hfo with
                      ⟨m2, hm2, hm2len, hov, hmin⟩
                    have hj2 : m2 = j := by omega
                    subst hj2
                    have hswap := scanR1_swap_of_first_row A B m2 hwA hwB
                      (by omega) (by omega) hm2len hov hmin
                    unfold compare_fuzzy_junctions
                    simp only [hswap]
                    rw [if_neg hA1, if_neg hB1, walkLoop_comm]
                    simp only [hwalk]
                    rw [if_neg hb2]
                    simp
                  · rw [if_neg hi0] at hsub
                    split at hsub <;> exact absurd hsub (by decide)
              · rw [if_neg hb1] at hsub
                by_cases hj0 : j = 0
                · rw [if_pos hj0] at hsub; exact absurd hsub (by decide)
                · rw [if_neg hj0] at hsub
                  split at hsub <;> exact absurd hsub (by decide)

/-- Witness for the amended C4 theorem: a concrete well-formed pair where
`compare(B, A)` is `subset` and the theorem yields `compare(A, B) = super`. -/
theorem C4_subset_implies_super_witness :
    wfChain [⟨0, 10⟩, ⟨20, 30⟩, ⟨40, 50⟩] ∧ wfChain [⟨20, 30⟩, ⟨40, 50⟩] ∧
      compare_fuzzy_junctions [⟨20, 30⟩, ⟨40, 50⟩]
        [⟨0, 10⟩, ⟨20, 30⟩, ⟨40, 50⟩] 0 = "subset" ∧
      compare_fuzzy_junctions [⟨0, 10⟩, ⟨20, 30⟩, ⟨40, 50⟩]
        [⟨20, 30⟩, ⟨40, 50⟩] 0 = "super" :=
  ⟨by decide, by decide,
    by simp [compare_fuzzy_junctions, scanR1, innerScan, firstOverlapIdx,
      walkLoop, exAt, pyGetD, overlaps, pyAbs],
    C4_subset_implies_super _ _ 0 (by decide) (by decide)
      (by simp [compare_fuzzy_junctions, scanR1, innerScan, firstOverlapIdx,
        walkLoop, exAt, pyGetD, overlaps, pyAbs])⟩

/-! ## `remove_subset_isoforms_from_list` (FilteringUtils.py, lines 48-73) -/

/-- Strict nesting of exon chain `B` inside exon chain `A` with the same
3-prime anchor, on strand `+`: `B` (at least two exons) consists of the last
`B.length` exons of `A` (which has strictly more), except that `B`'s first
exon may be 5-prime-truncated: it shares its end with the aligned exon of
`A` and starts inside it. -/
def nestedInPlus (B A : List Itv) : Prop :=
  2 ≤ B.length ∧ B.length < A.length ∧
  (∀ k : Nat, k < B.length → 1 ≤ k →
    exAt B k = exAt A ((A.length - B.length + k : Nat))) ∧
  (exAt B 0).stop = (exAt A ((A.length - B.length : Nat))).stop ∧
  (exAt A ((A.length - B.length : Nat))).start ≤ (exAt B 0).start ∧
  (exAt B 0).start < (exAt A ((A.length - B.length : Nat))).stop

/-- Strict nesting of exon chain `B` inside exon chain `A` with the same
3-prime anchor, on strand `-`: `B` (at least two exons) consists of the first
`B.length` exons of `A` (which has strictly more), except that `B`'s last
exon may be 5-prime-truncated: it shares its start with the aligned exon of
`A` and ends inside it. -/
def nestedInMinus (B A : List Itv) : Prop :=
  2 ≤ B.length ∧ B.length < A.length ∧
  (∀ k : Nat, k < B.length - 1 → exAt B k = exAt A k) ∧
  (exAt B ((B.length - 1 : Nat))).start = (exAt A ((B.length - 1 : Nat))).start ∧
  (exAt A ((B.length - 1 : Nat))).start < (exAt B ((B.length - 1 : Nat))).stop ∧
  (exAt B ((B.length - 1 : Nat))).stop ≤ (exAt A ((B.length - 1 : Nat))).stop

/-- Strand-dispatching strict nesting. -/
def nestedIn (strand : Char) (B A : List Itv) : Prop :=
  if strand = '+' then nestedInPlus B A else nestedInMinus B A

/-- On strand `+`, the junction walk of a nested pair runs to the common end:
all compared junctions agree exactly. -/
theorem walkLoop_nested_plus (A B : List Itv) (t : Int) (ht : 0 ≤ t)
    (hn : nestedInPlus B A) :
    ∀ k : Nat, k < B.length →
      walkLoop A B t (A.length - B.length) 0 k = some (B.length - 1) := by
  obtain ⟨hB2, hBA, hshare, hstop, _, _⟩ := hn
  have H : ∀ n k, B.length - 1 - k ≤ n → k < B.length →
      walkLoop A B t (A.length - B.length) 0 k = some (B.length - 1) := by
    intro n
    induction n with
    | zero =>
        intro k hkn hkB
        have hkeq : k = B.length - 1 := by omega
        rw [walkLoop]
        rw [if_neg (by omega : ¬((A.length - B.length) + k + 1 < A.length ∧
          0 + k + 1 < B.length))]
        rw [hkeq]
    | succ n ih =>
        intro k hkn hkB
        by_cases hlast : k = B.length - 1
        · rw [walkLoop]
          rw [if_neg (by omega : ¬((A.length - B.length) + k + 1 < A.length ∧
            0 + k + 1 < B.length))]
          rw [hlast]
        · rw [walkLoop]
          rw [if_pos (by omega : (A.length - B.length) + k + 1 < A.length ∧
            0 + k + 1 < B.length)]
          have hstopk : (exAt A (((A.length - B.length) + k : Nat))).stop =
              (exAt B k).stop := by
            match k with
            | 0 => simpa using hstop.symm
            | k + 1 => rw [hshare (k + 1) (by omega) (by omega)]
          have hstartk : (exAt A (((A.length - B.length) + (k + 1) : Nat))).start =
              (exAt B ((k + 1 : Nat))).start := by
            rw [hshare (k + 1) (by omega) (by omega)]
          rw [if_neg ?hcheck]
          case hcheck =>
            push_neg
            constructor
            · rw [(by push_cast; ring : ((A.length - B.length : Nat) : Int) + (k : Int) =
                (((A.length - B.length) + k : Nat) : Int)), hstopk]
              simp [pyAbs, ht]
            · rw [(by push_cast; ring : ((A.length - B.length : Nat) : Int) + (k : Int) + 1 =
                (((A.length - B.length) + (k + 1) : Nat) : Int)), hstartk]
              simp [pyAbs, ht]
          exact ih (k + 1) (by omega) (by omega)
  exact fun k hkB => H (B.length - 1 - k) k (by omega) hkB

/-- On strand `-`, the junction walk of a nested pair runs to the end of the
shorter chain: the shared junctions agree exactly. -/
theorem walkLoop_nested_minus (A B : List Itv) (t : Int) (ht : 0 ≤ t)
    (hn : nestedInMinus B A) :
    ∀ k : Nat, k < B.length →
      walkLoop A B t 0 0 k = some (B.length - 1) := by
  obtain ⟨hB2, hBA, hshare, hstart, _, _⟩ := hn
  have H : ∀ n k, B.length - 1 - k ≤ n → k < B.length →
      walkLoop A B t 0 0 k = some (B.length - 1) := by
    intro n
    induction n with
    | zero =>
        intro k hkn hkB
        have hkeq : k = B.length - 1 := by omega
        rw [walkLoop]
        rw [if_neg (by omega : ¬(0 + k + 1 < A.length ∧ 0 + k + 1 < B.length))]
        rw [hkeq]
    | succ n ih =>
        intro k hkn hkB
        by_cases hlast : k = B.length - 1
        · rw [walkLoop]
          rw [if_neg (by omega : ¬(0 + k + 1 < A.length ∧ 0 + k + 1 < B.length))]
          rw [hlast]
        · rw [walkLoop]
          rw [if_pos (by omega : 0 + k + 1 < A.length ∧ 0 + k + 1 < B.length)]
          have hstopk : (exAt A (k : Nat)).stop = (exAt B k).stop := by
            rw [hshare k (by omega)]
          have hstartk : (exAt A ((k + 1 : Nat))).start =
              (exAt B ((k + 1 : Nat))).start := by
            by_cases hlt : k + 1 < B.length - 1
            · rw [hshare (k + 1) hlt]
            · have hke : k + 1 = B.length - 1 := by omega
              rw [hke]
              exact hstart.symm
          rw [if_neg ?hcheck]
          case hcheck =>
            push_neg
            constructor
            · rw [(by push_cast; ring : ((0 : Nat) : Int) + (k : Int) = ((k : Nat) : Int)),
                hstopk]
              simp [pyAbs, ht]
            · rw [(by push_cast; ring : ((0 : Nat) : Int) + (k : Int) + 1 =
                ((k + 1 : Nat) : Int)), hstartk]
              simp [pyAbs, ht]
          exact ih (k + 1) (by omega) (by omega)
  exact fun k hkB => H (B.length - 1 - k) k (by omega) hkB

/-- Python negative indexing through `exAt`: `l[-n]` is `l[len-n]`. -/
theorem exAt_neg (l : List Itv) (n : Nat) (h1 : 1 ≤ n) (h2 : n ≤ l.length) :
    exAt l (-(n : Int)) = exAt l ((l.length - n : Nat)) := by
  have e1 : (-(-(n : Int))).toNat = n := by simp
  unfold exAt pyGetD
  rw [if_neg (by omega : ¬(0 : Int) ≤ -(n : Int)), if_pos (by rw [e1]; exact h2),
    if_pos (by omega : (0 : Int) ≤ ((l.length - n : Nat) : Int)), e1,
    Int.toNat_natCast]

/-- A nested pair on strand `+` is classified `super`. -/
theorem compare_nested_plus (Aex Bex : List Itv) (t : Int) (ht : 0 ≤ t)
    (hwA : wfChain Aex) (hwB : wfChain Bex) (hn : nestedInPlus Bex Aex) :
    compare_fuzzy_junctions Aex Bex t = "super" := by
  obtain ⟨hB2, hBA, hshare, hstop, hsle, hslt⟩ := hn
  have hAdwf : (exAt Aex ((Aex.length - Bex.length : Nat))).start <
      (exAt Aex ((Aex.length - Bex.length : Nat))).stop :=
    lt_of_le_of_lt hsle hslt
  have hovJ : overlaps (exAt Bex 0) (exAt Aex ((Aex.length - Bex.length : Nat))) = true := by
    apply (overlaps_eq_true_iff _ _).mpr
    rw [hstop, min_self]
    exact max_lt_iff.mpr ⟨hslt, hAdwf⟩
  have hminJ : ∀ m' < Aex.length - Bex.length,
      overlaps (exAt Bex 0) (exAt Aex m') = false := by
    intro m' hm'
    apply (overlaps_eq_false_iff _ _).mpr
    have h1 : (exAt Aex m').stop ≤ (exAt Aex ((Aex.length - Bex.length : Nat))).start :=
      chain_stop_le_start Aex hwA m' (Aex.length - Bex.length) hm' (by omega)
    calc min (exAt Bex 0).stop (exAt Aex m').stop
        ≤ (exAt Aex m').stop := min_le_right _ _
      _ ≤ (exAt Aex ((Aex.length - Bex.length : Nat))).start := h1
      _ ≤ (exAt Bex 0).start := hsle
      _ ≤ max (exAt Bex 0).start (exAt Aex m').start := le_max_left _ _
  have hscan : scanR1 Aex 0 Bex = some (Aex.length - Bex.length, 0) :=
    scanR1_swap_of_first_row Aex Bex (Aex.length - Bex.length) hwA hwB
      (by omega) (by omega) (by omega) hovJ hminJ
  have hwalk := walkLoop_nested_plus Aex Bex t ht
    ⟨hB2, hBA, hshare, hstop, hsle, hslt⟩ 0 (by omega)
  unfold compare_fuzzy_junctions
  simp only [hscan]
  rw [if_neg (by omega : ¬Aex.length = 1), if_neg (by omega : ¬Bex.length = 1)]
  simp only [hwalk]
  rw [if_pos (by omega : Aex.length - Bex.length + (Bex.length - 1) + 1 = Aex.length)]
  rw [if_pos (by omega : 0 + (Bex.length - 1) + 1 = Bex.length)]
  rw [if_neg (by omega : ¬(Aex.length - Bex.length) = 0)]

/-- A nested pair on strand `-` is classified `super`. -/
theorem compare_nested_minus (Aex Bex : List Itv) (t : Int) (ht : 0 ≤ t)
    (hwA : wfChain Aex) (hwB : wfChain Bex) (hn : nestedInMinus Bex Aex) :
    compare_fuzzy_junctions Aex Bex t = "super" := by
  obtain ⟨hB2, hBA, hshare, hstart, hlt, hle⟩ := hn
  have hB0 : exAt Bex 0 = exAt Aex 0 := by
    simpa using hshare 0 (by omega)
  have hB0wf : (exAt Bex 0).start < (exAt Bex 0).stop :=
    hwB.1 _ (exAt_mem Bex 0 (by omega))
  have hovJ : overlaps (exAt Bex 0) (exAt Aex 0) = true := by
    apply (overlaps_eq_true_iff _ _).mpr
    rw [← hB0, max_self, min_self]
    exact hB0wf
  have hscan : scanR1 Aex 0 Bex = some (0, 0) :=
    scanR1_swap_of_first_row Aex Bex 0 hwA hwB
      (by omega) (by omega) (by omega) hovJ (by omega)
  have hwalk := walkLoop_nested_minus Aex Bex t ht
    ⟨hB2, hBA, hshare, hstart, hlt, hle⟩ 0 (by omega)
  unfold compare_fuzzy_junctions
  simp only [hscan]
  rw [if_neg (by omega : ¬Aex.length = 1), if_neg (by omega : ¬Bex.length = 1)]
  simp only [hwalk]
  rw [if_neg (by omega : ¬(0 + (Bex.length - 1) + 1 = Aex.length))]
  simp

/-- A nested pair on strand `+` passes the merge test of `can_merge`. -/
theorem can_merge_nested_plus (A B : CollapseRecord) (t : Int) (ht : 0 ≤ t)
    (hstr : A.strand = '+')
    (hn : nestedInPlus B.ref_exons A.ref_exons) :
    can_merge "super" A B true t = true := by
  obtain ⟨hB2, hBA, hshare, hstop, hsle, hslt⟩ := hn
  have hAneg : exAt A.ref_exons (-1) =
      exAt A.ref_exons ((A.ref_exons.length - 1 : Nat)) :=
    exAt_neg A.ref_exons 1 (by omega) (by omega)
  have hBneg : exAt B.ref_exons (-1) =
      exAt B.ref_exons ((B.ref_exons.length - 1 : Nat)) :=
    exAt_neg B.ref_exons 1 (by omega) (by omega)
  have hAn2 : exAt A.ref_exons (-(B.ref_exons.length : Int)) =
      exAt A.ref_exons ((A.ref_exons.length - B.ref_exons.length : Nat)) :=
    exAt_neg A.ref_exons B.ref_exons.length (by omega) (by omega)
  have hlast : exAt B.ref_exons ((B.ref_exons.length - 1 : Nat)) =
      exAt A.ref_exons ((A.ref_exons.length - 1 : Nat)) := by
    rw [hshare (B.ref_exons.length - 1) (by omega) (by omega)]
    congr 1
    omega
  unfold can_merge
  rw [if_neg (by decide : ¬("super" : String) = "exact")]
  simp only [Bool.not_true, Bool.false_eq_true, if_false,
    if_neg (by decide : ¬("super" : String) = "subset")]
  rw [if_pos (Or.inl trivial : True ∨ ("super" : String) = "subset"), if_pos hstr]
  rw [hAneg, hBneg, hAn2, hlast]
  simp [pyAbs, ht, hsle, hslt]

/-- A nested pair on strand `-` passes the merge test of `can_merge`. -/
theorem can_merge_nested_minus (A B : CollapseRecord) (t : Int) (ht : 0 ≤ t)
    (hstr : A.strand = '-') (hwA : wfChain A.ref_exons)
    (hn : nestedInMinus B.ref_exons A.ref_exons) :
    can_merge "super" A B true t = true := by
  obtain ⟨hB2, hBA, hshare, hstart, hlt, hle⟩ := hn
  have hB0 : exAt B.ref_exons 0 = exAt A.ref_exons 0 := by
    simpa using hshare 0 (by omega)
  have hBneg : exAt B.ref_exons (-1) =
      exAt B.ref_exons ((B.ref_exons.length - 1 : Nat)) :=
    exAt_neg B.ref_exons 1 (by omega) (by omega)
  have hchain : (exAt A.ref_exons ((B.ref_exons.length - 1 : Nat))).stop ≤
      (exAt A.ref_exons ((B.ref_exons.length : Nat))).start :=
    chain_stop_le_start A.ref_exons hwA (B.ref_exons.length - 1)
      B.ref_exons.length (by omega) (by omega)
  have hAn2wf : (exAt A.ref_exons ((B.ref_exons.length : Nat))).start <
      (exAt A.ref_exons ((B.ref_exons.length : Nat))).stop :=
    hwA.1 _ (exAt_mem A.ref_exons B.ref_exons.length (by omega))
  unfold can_merge
  rw [if_neg (by decide : ¬("super" : String) = "exact")]
  simp only [Bool.not_true, Bool.false_eq_true, if_false,
    if_neg (by decide : ¬("super" : String) = "subset")]
  rw [if_pos (Or.inl trivial : True ∨ ("super" : String) = "subset"),
    if_neg (by simp [hstr] : ¬A.strand = '+')]
  rw [hB0, hBneg]
  rw [(by omega : ((B.ref_exons.length : Int) - 1) =
    ((B.ref_exons.length - 1 : Nat) : Int))]
  simp only [Bool.and_eq_true, decide_eq_true_eq]
  refine ⟨by simp [pyAbs, ht], le_of_lt hlt, ?_⟩
  exact lt_of_le_of_lt (le_trans hle hchain) hAn2wf

/-- Nesting is transitive on strand `+`. -/
theorem nestedInPlus_trans (C B A : List Itv)
    (h1 : nestedInPlus C B) (h2 : nestedInPlus B A) : nestedInPlus C A := by
  obtain ⟨hC2, hCB, hshare1, hstop1, hsle1, hslt1⟩ := h1
  obtain ⟨hB2, hBA, hshare2, hstop2, hsle2, hslt2⟩ := h2
  have hBd : exAt B ((B.length - C.length : Nat)) =
      exAt A ((A.length - C.length : Nat)) := by
    rw [hshare2 (B.length - C.length) (by omega) (by omega)]
    congr 1
    omega
  refine ⟨hC2, by omega, ?_, ?_, ?_, ?_⟩
  · intro k hk2 hk1
    rw [hshare1 k hk2 hk1, hshare2 (B.length - C.length + k) (by omega) (by omega)]
    congr 1
    omega
  · rw [hstop1, hBd]
  · rw [← hBd]; exact hsle1
  · rw [← hBd]; exact hslt1

/-- Nesting is transitive on strand `-`. -/
theorem nestedInMinus_trans (C B A : List Itv)
    (h1 : nestedInMinus C B) (h2 : nestedInMinus B A) : nestedInMinus C A := by
  obtain ⟨hC2, hCB, hshare1, hstart1, hlt1, hle1⟩ := h1
  obtain ⟨hB2, hBA, hshare2, hstart2, hlt2, hle2⟩ := h2
  have hBd : exAt B ((C.length - 1 : Nat)) = exAt A ((C.length - 1 : Nat)) :=
    hshare2 (C.length - 1) (by omega)
  refine ⟨hC2, by omega, ?_, ?_, ?_, ?_⟩
  · intro k hk
    rw [hshare1 k hk, hshare2 k (by omega)]
  · rw [hstart1, hBd]
  · rw [← hBd]; exact hlt1
  · rw [← hBd]; exact hle1

/-- Out-of-range default for Python list indexing of records (every index
reached below is in range). -/
def defaultRec : CollapseRecord := ⟨"", ' ', 0, 0, []⟩

/-- The inner `while j < len(recs)` loop of `remove_subset_isoforms_from_list`
(FilteringUtils.py, lines 59-72): breaks when `recs[j]` starts after `recs[i]`
ends; otherwise classifies the pair and, when mergeable, pops `recs[j]` (for
`super`) or pops `recs[i]` and advances `j` (otherwise); advances `j` when not
mergeable.  The Python local `m` is bound once; it is inlined here (the
classification is pure). -/
def innerRS (t : Int) (recs : List CollapseRecord) (i j : Nat) :
    List CollapseRecord :=
  if h : j < recs.length then
    if (pyGetD recs (j : Int) defaultRec).start >
        (pyGetD recs (i : Int) defaultRec).stop then recs
    else
      if can_merge (compare_fuzzy_junctions (pyGetD recs (i : Int) defaultRec).ref_exons
            (pyGetD recs (j : Int) defaultRec).ref_exons t)
          (pyGetD recs (i : Int) defaultRec) (pyGetD recs (j : Int) defaultRec)
          true t then
        if compare_fuzzy_junctions (pyGetD recs (i : Int) defaultRec).ref_exons
            (pyGetD recs (j : Int) defaultRec).ref_exons t = "super" then
          innerRS t (recs.eraseIdx j) i j
        else innerRS t (recs.eraseIdx i) i (j + 1)
      else innerRS t recs i (j + 1)
  else recs
termination_by recs.length - j
decreasing_by
  · rw [List.length_eraseIdx]
    split <;> omega
  · rw [List.length_eraseIdx]
    split <;> omega
  · omega

/-- The inner loop never lengthens the record list. -/
theorem innerRS_length_le_aux (t : Int) :
    ∀ (n : Nat) (recs : List CollapseRecord) (i j : Nat), recs.length - j ≤ n →
      (innerRS t recs i j).length ≤ recs.length := by
  intro n
  induction n with
  | zero =>
      intro recs i j h
      rw [innerRS, dif_neg (by omega : ¬ j < recs.length)]
  | succ n ih =>
      intro recs i j h
      rw [innerRS]
      by_cases hj : j < recs.length
      · rw [dif_pos hj]
        have he1 : (recs.eraseIdx j).length = recs.length - 1 := by
          rw [List.length_eraseIdx]
          split <;> omega
        have he2 : (recs.eraseIdx i).length ≤ recs.length := by
          rw [List.length_eraseIdx]
          split <;> omega
        have he2b : recs.length - 1 ≤ (recs.eraseIdx i).length := by
          rw [List.length_eraseIdx]
          split <;> omega
        split
        · exact le_refl _
        · split
          · split
            · exact le_trans (ih (recs.eraseIdx j) i j (by omega)) (by omega)
            · exact le_trans (ih (recs.eraseIdx i) i (j + 1) (by omega)) he2
          · exact ih recs i (j + 1) (by omega)
      · rw [dif_neg hj]

theorem innerRS_length_le (t : Int) (recs : List CollapseRecord) (i j : Nat) :
    (innerRS t recs i j).length ≤ recs.length :=
  innerRS_length_le_aux t recs.length recs i j (by omega)

/-- The outer `while i < len(recs)-1` loop of
`remove_subset_isoforms_from_list` (FilteringUtils.py, lines 56-73). -/
def outerRS (t : Int) (recs : List CollapseRecord) (i : Nat) :
    List CollapseRecord :=
  if i < recs.length - 1 then outerRS t (innerRS t recs i (i + 1)) (i + 1)
  else recs
termination_by recs.length - i
decreasing_by
  have := innerRS_length_le t recs i (i + 1)
  omega

/-- Embeds `remove_subset_isoforms_from_list(recs, max_fuzzy_junction)`
(FilteringUtils.py, lines 48-73).  The Python function mutates `recs` in
place; the embedding returns the final list. -/
def remove_subset_isoforms_from_list (recs : List CollapseRecord)
    (max_fuzzy_junction : Int) : List CollapseRecord :=
  outerRS max_fuzzy_junction recs 0

/-- Consistency of a collapsed record with its exon chain: the chain is
well-formed and nonempty, and the record's genomic span is the chain's
span (as `CollapseGffReader` produces). -/
def recOK (r : CollapseRecord) : Prop :=
  wfChain r.ref_exons ∧ r.ref_exons ≠ [] ∧
  r.start = (exAt r.ref_exons 0).start ∧
  r.stop = (exAt r.ref_exons ((r.ref_exons.length - 1 : Nat))).stop

/-- C6 counterexample: three records with strictly nested exon chains
`[(0,10),(20,30),(40,50)] ⊃ [(20,30),(40,50)] ⊃ [(45,50)]`, all sharing the
3-prime anchor 50 on strand `+` and sorted by start.  The claim says only
the first survives; in fact the mono-exon innermost record survives too:
`can_merge` compares the last exons' start coordinates (`|40 - 45| = 5 >
max_fuzzy_junction = 0`), so the third record is never merged away. -/
theorem C6_counterexample :
    remove_subset_isoforms_from_list
      [⟨"PB.1.1", '+', 0, 50, [⟨0, 10⟩, ⟨20, 30⟩, ⟨40, 50⟩]⟩,
       ⟨"PB.1.2", '+', 20, 50, [⟨20, 30⟩, ⟨40, 50⟩]⟩,
       ⟨"PB.1.3", '+', 45, 50, [⟨45, 50⟩]⟩] 0 =
      [⟨"PB.1.1", '+', 0, 50, [⟨0, 10⟩, ⟨20, 30⟩, ⟨40, 50⟩]⟩,
       ⟨"PB.1.3", '+', 45, 50, [⟨45, 50⟩]⟩] := by
  simp [remove_subset_isoforms_from_list, outerRS, innerRS,
    compare_fuzzy_junctions, can_merge, walkLoop, scanR1, innerScan,
    firstOverlapIdx, exAt, pyGetD, overlaps, pyAbs, defaultRec]

/-- Symbolic execution of `remove_subset_isoforms_from_list` on a
three-record list in which the first record absorbs the other two. -/
theorem removeSubset_three (A B C : CollapseRecord) (t : Int)
    (hcmpAB : compare_fuzzy_junctions A.ref_exons B.ref_exons t = "super")
    (hcmpAC : compare_fuzzy_junctions A.ref_exons C.ref_exons t = "super")
    (hmgAB : can_merge "super" A B true t = true)
    (hmgAC : can_merge "super" A C true t = true)
    (hb1 : ¬ B.start > A.stop) (hb2 : ¬ C.start > A.stop) :
    remove_subset_isoforms_from_list [A, B, C] t = [A] := by
  unfold remove_subset_isoforms_from_list
  have h1 : innerRS t [A, B, C] 0 1 = [A] := by
    rw [innerRS, dif_pos (by simp : (1 : Nat) < ([A, B, C].length))]
    have hg0 : pyGetD [A, B, C] ((0 : Nat) : Int) defaultRec = A := rfl
    have hg1 : pyGetD [A, B, C] ((1 : Nat) : Int) defaultRec = B := rfl
    rw [hg0, hg1, if_neg hb1, hcmpAB, if_pos hmgAB, if_pos rfl]
    have he1 : [A, B, C].eraseIdx 1 = [A, C] := by rfl
    rw [he1]
    rw [innerRS, dif_pos (by simp : (1 : Nat) < ([A, C].length))]
    have hg0b : pyGetD [A, C] ((0 : Nat) : Int) defaultRec = A := rfl
    have hg1b : pyGetD [A, C] ((1 : Nat) : Int) defaultRec = C := rfl
    rw [hg0b, hg1b, if_neg hb2, hcmpAC, if_pos hmgAC, if_pos rfl]
    have he2 : [A, C].eraseIdx 1 = [A] := by rfl
    rw [he2]
    rw [innerRS, dif_neg (by simp : ¬ (1 : Nat) < ([A].length))]
  rw [outerRS, if_pos (by simp : 0 < ([A, B, C].length) - 1), h1]
  rw [outerRS, if_neg (by simp : ¬ 1 < ([A].length) - 1)]

/-- C6 amended: for three consistent records `A ⊃ B ⊃ C` on one strand whose
exon chains are strictly nested with the same 3-prime anchor AND whose nested
chains each span at least two exons, `remove_subset_isoforms_from_list`
(with `allow_extra_5exon` hard-wired to `True` as in the source) leaves only
`A`.  (Without the two-exon proviso the claim fails: a mono-exon innermost
record whose 5-prime truncation exceeds `max_fuzzy_junction` survives, see
the counterexample.) -/
theorem C6_nested_only_A_remains (A B C : CollapseRecord) (t : Int)
    (ht : 0 ≤ t) (hstr : A.strand = '+' ∨ A.strand = '-')
    (hA : recOK A) (hB : recOK B) (hC : recOK C)
    (hBA : nestedIn A.strand B.ref_exons A.ref_exons)
    (hCB : nestedIn A.strand C.ref_exons B.ref_exons) :
    remove_subset_isoforms_from_list [A, B, C] t = [A] := by
  obtain ⟨hwA, hneA, hstA, hspA⟩ := hA
  obtain ⟨hwB, hneB, hstB, hspB⟩ := hB
  obtain ⟨hwC, hneC, hstC, hspC⟩ := hC
  rcases hstr with hp | hm
  · rw [nestedIn, if_pos hp] at hBA hCB
    have hCA := nestedInPlus_trans _ _ _ hCB hBA
    have hlast_wf : (exAt A.ref_exons ((A.ref_exons.length - 1 : Nat))).start <
        (exAt A.ref_exons ((A.ref_exons.length - 1 : Nat))).stop :=
      hwA.1 _ (exAt_mem A.ref_exons (A.ref_exons.length - 1)
        (by have := hBA.1; have := hBA.2.1; omega))
    have hchB : (exAt A.ref_exons
          ((A.ref_exons.length - B.ref_exons.length : Nat))).stop ≤
        (exAt A.ref_exons ((A.ref_exons.length - 1 : Nat))).start :=
      chain_stop_le_start A.ref_exons hwA _ _
        (by have := hBA.1; have := hBA.2.1; omega)
        (by have := hBA.1; have := hBA.2.1; omega)
    have hchC : (exAt A.ref_exons
          ((A.ref_exons.length - C.ref_exons.length : Nat))).stop ≤
        (exAt A.ref_exons ((A.ref_exons.length - 1 : Nat))).start :=
      chain_stop_le_start A.ref_exons hwA _ _
        (by have := hCA.1; have := hCA.2.1; omega)
        (by have := hCA.1; have := hCA.2.1; omega)
    have hb1 : ¬ B.start > A.stop := by
      rw [hstB, hspA]
      simp only [gt_iff_lt, not_lt]
      exact le_of_lt (lt_of_lt_of_le hBA.2.2.2.2.2
        (le_trans hchB (le_of_lt hlast_wf)))
    have hb2 : ¬ C.start > A.stop := by
      rw [hstC, hspA]
      simp only [gt_iff_lt, not_lt]
      exact le_of_lt (lt_of_lt_of_le hCA.2.2.2.2.2
        (le_trans hchC (le_of_lt hlast_wf)))
    exact removeSubset_three A B C t
      (compare_nested_plus A.ref_exons B.ref_exons t ht hwA hwB hBA)
      (compare_nested_plus A.ref_exons C.ref_exons t ht hwA hwC hCA)
      (can_merge_nested_plus A B t ht hp hBA)
      (can_merge_nested_plus A C t ht hp hCA) hb1 hb2
  · rw [nestedIn, if_neg (by simp [hm])] at hBA hCB
    have hCA := nestedInMinus_trans _ _ _ hCB hBA
    have hlenA3 : 3 ≤ A.ref_exons.length := by
      have := hBA.1
      have := hBA.2.1
      have := hCB.1
      omega
    have hlast_wf : (exAt A.ref_exons ((A.ref_exons.length - 1 : Nat))).start <
        (exAt A.ref_exons ((A.ref_exons.length - 1 : Nat))).stop :=
      hwA.1 _ (exAt_mem A.ref_exons (A.ref_exons.length - 1) (by omega))
    have hA0_wf : (exAt A.ref_exons 0).start < (exAt A.ref_exons 0).stop :=
      hwA.1 _ (exAt_mem A.ref_exons 0 (by omega))
    have hch0 : (exAt A.ref_exons (0 : Nat)).stop ≤
        (exAt A.ref_exons ((A.ref_exons.length - 1 : Nat))).start :=
      chain_stop_le_start A.ref_exons hwA 0 (A.ref_exons.length - 1)
        (by omega) (by omega)
    have hstop_le : (exAt A.ref_exons 0).start ≤
        (exAt A.ref_exons ((A.ref_exons.length - 1 : Nat))).stop := by
      have h0 : (exAt A.ref_exons (0 : Nat)) = (exAt A.ref_exons 0) := by norm_num
      exact le_of_lt (lt_of_lt_of_le hA0_wf (le_trans (h0 ▸ hch0)
        (le_of_lt hlast_wf)))
    have hB0 : exAt B.ref_exons 0 = exAt A.ref_exons 0 := by
      simpa using hBA.2.2.1 0 (by have := hBA.1; omega)
    have hC0 : exAt C.ref_exons 0 = exAt A.ref_exons 0 := by
      simpa using hCA.2.2.1 0 (by have := hCA.1; omega)
    have hb1 : ¬ B.start > A.stop := by
      rw [hstB, hspA, hB0]
      simp only [gt_iff_lt, not_lt]
      exact hstop_le
    have hb2 : ¬ C.start > A.stop := by
      rw [hstC, hspA, hC0]
      simp only [gt_iff_lt, not_lt]
      exact hstop_le
    exact removeSubset_three A B C t
      (compare_nested_minus A.ref_exons B.ref_exons t ht hwA hwB hBA)
      (compare_nested_minus A.ref_exons C.ref_exons t ht hwA hwC hCA)
      (can_merge_nested_minus A B t ht hm hwA hBA)
      (can_merge_nested_minus A C t ht hm hwA hCA) hb1 hb2

instance (B A : List Itv) : Decidable (nestedInPlus B A) :=
  inferInstanceAs (Decidable (2 ≤ B.length ∧ B.length < A.length ∧
    (∀ k : Nat, k < B.length → 1 ≤ k →
      exAt B k = exAt A ((A.length - B.length + k : Nat))) ∧
    (exAt B 0).stop = (exAt A ((A.length - B.length : Nat))).stop ∧
    (exAt A ((A.length - B.length : Nat))).start ≤ (exAt B 0).start ∧
    (exAt B 0).start < (exAt A ((A.length - B.length : Nat))).stop))

instance (B A : List Itv) : Decidable (nestedInMinus B A) :=
  inferInstanceAs (Decidable (2 ≤ B.length ∧ B.length < A.length ∧
    (∀ k : Nat, k < B.length - 1 → exAt B k = exAt A k) ∧
    (exAt B ((B.length - 1 : Nat))).start = (exAt A ((B.length - 1 : Nat))).start ∧
    (exAt A ((B.length - 1 : Nat))).start < (exAt B ((B.length - 1 : Nat))).stop ∧
    (exAt B ((B.length - 1 : Nat))).stop ≤ (exAt A ((B.length - 1 : Nat))).stop))

instance (s : Char) (B A : List Itv) : Decidable (nestedIn s B A) :=
  inferInstanceAs (Decidable (if s = '+' then nestedInPlus B A else nestedInMinus B A))

instance (r : CollapseRecord) : Decidable (recOK r) :=
  inferInstanceAs (Decidable (wfChain r.ref_exons ∧ r.ref_exons ≠ [] ∧
    r.start = (exAt r.ref_exons 0).start ∧
    r.stop = (exAt r.ref_exons ((r.ref_exons.length - 1 : Nat))).stop))

/-- Witness for the amended C6 theorem: a concrete strictly nested multi-exon
triple on strand `+`, reduced by the removal pass to its outermost record. -/
theorem C6_nested_only_A_remains_witness :
    recOK ⟨"PB.1.1", '+', 0, 70, [⟨0, 10⟩, ⟨20, 30⟩, ⟨40, 50⟩, ⟨60, 70⟩]⟩ ∧
      nestedIn '+' [⟨22, 30⟩, ⟨40, 50⟩, ⟨60, 70⟩]
        [⟨0, 10⟩, ⟨20, 30⟩, ⟨40, 50⟩, ⟨60, 70⟩] ∧
      nestedIn '+' [⟨45, 50⟩, ⟨60, 70⟩] [⟨22, 30⟩, ⟨40, 50⟩, ⟨60, 70⟩] ∧
      remove_subset_isoforms_from_list
        [⟨"PB.1.1", '+', 0, 70, [⟨0, 10⟩, ⟨20, 30⟩, ⟨40, 50⟩, ⟨60, 70⟩]⟩,
         ⟨"PB.1.2", '+', 22, 70, [⟨22, 30⟩, ⟨40, 50⟩, ⟨60, 70⟩]⟩,
         ⟨"PB.1.3", '+', 45, 70, [⟨45, 50⟩, ⟨60, 70⟩]⟩] 0 =
        [⟨"PB.1.1", '+', 0, 70, [⟨0, 10⟩, ⟨20, 30⟩, ⟨40, 50⟩, ⟨60, 70⟩]⟩] :=
  ⟨by decide, by decide, by decide,
    C6_nested_only_A_remains
      ⟨"PB.1.1", '+', 0, 70, [⟨0, 10⟩, ⟨20, 30⟩, ⟨40, 50⟩, ⟨60, 70⟩]⟩
      ⟨"PB.1.2", '+', 22, 70, [⟨22, 30⟩, ⟨40, 50⟩, ⟨60, 70⟩]⟩
      ⟨"PB.1.3", '+', 45, 70, [⟨45, 50⟩, ⟨60, 70⟩]⟩ 0
      (by decide) (Or.inl rfl) (by decide) (by decide) (by decide)
      (by decide) (by decide)⟩

/-! ## `exons_match_sam_record` (lines 232-274) and the per-record loop of
`collapse_sam_records` (lines 431-437) -/

/-- A matched exon node as returned by the external `c_branch.exon_matching`
capability; only its `.value` attribute (the exon id) is read here. -/
structure MatchNode where
  value : Nat
  deriving DecidableEq, Repr

/-- Python exceptions surfacing in this code path. -/
inductive PyErr where
  | indexError
  | typeError
  deriving DecidableEq, Repr

/-- The per-segment loop of `exons_match_sam_record` (lines 245-273).
`matching e tl tr` embeds `c_branch.exon_matching(exon_tree=exons,
ref_exon=e, match_extend_tolerate_left=tl, match_extend_tolerate_right=tr,
intervals_adjacent=...)` -- the tree and the `intervals_adjacent` flag are
fixed for the whole call and folded into the oracle.  `.ok none` embeds the
`return None` rejections; `.error .indexError` embeds the `matches[0]`
access on an empty match list. -/
def emsrLoop (matching : Itv → Int → Int → Option (List MatchNode))
    (num_exons : Nat) (tolerate_middle tolerate_end : Int)
    (ok_to_miss_matches : Bool) :
    Nat → List Itv → List MatchNode → Except PyErr (Option (List MatchNode))
  | _, [], result => .ok (some result)
  | i, e :: rest, result =>
      let tl : Int :=
        if i = 0 ∧ num_exons > 1 then tolerate_end
        else if i = 0 ∧ num_exons = 1 then tolerate_end
        else if i = num_exons - 1 ∧ num_exons > 1 then tolerate_middle
        else tolerate_middle
      let tr : Int :=
        if i = 0 ∧ num_exons > 1 then tolerate_middle
        else if i = 0 ∧ num_exons = 1 then tolerate_end
        else if i = num_exons - 1 ∧ num_exons > 1 then tolerate_end
        else tolerate_middle
      match matching e tl tr with
      | none =>
          if !ok_to_miss_matches then .ok none
          else emsrLoop matching num_exons tolerate_middle tolerate_end
            ok_to_miss_matches (i + 1) rest result
      | some ms =>
          if result.length ≥ 1 then
            match ms with
            | [] => .error .indexError
            | m0 :: _ =>
                if (result.getLast?.getD ⟨0⟩).value ≥ m0.value ∧
                    !ok_to_miss_matches then .ok none
                else emsrLoop matching num_exons tolerate_middle tolerate_end
                  ok_to_miss_matches (i + 1) rest (result ++ ms)
          else emsrLoop matching num_exons tolerate_middle tolerate_end
            ok_to_miss_matches (i + 1) rest (result ++ ms)

/-- Embeds `exons_match_sam_record(record, exons, tolerate_middle,
tolerate_end, ok_to_miss_matches, intervals_adjacent)` (lines 232-274), with
the exon tree and adjacency flag folded into the `matching` oracle. -/
def exons_match_sam_record (matching : Itv → Int → Int → Option (List MatchNode))
    (segments : List Itv) (tolerate_middle tolerate_end : Int)
    (ok_to_miss_matches : Bool) : Except PyErr (Option (List MatchNode)) :=
  emsrLoop matching segments.length tolerate_middle tolerate_end
    ok_to_miss_matches 0 segments []

/-- Embeds the numpy element assignment `m[0, v] = 1` on the row matrix. -/
def pySetAt (l : List Int) (i v : Int) : List Int :=
  let j : Int := if 0 ≤ i then i else i + l.length
  l.mapIdx (fun k x => if (k : Int) = j then v else x)

/-- One result row of `collapse_sam_records` (lines 434-437): a zero row of
width `mat_size` with a 1 at each matched exon id. -/
def collapseBuildRow (mat_size : Nat) (nodes : List MatchNode) : List Int :=
  nodes.foldl (fun m x => pySetAt m (x.value : Int) 1)
    (List.replicate mat_size 0)

/-- The per-record loop of `collapse_sam_records` (lines 431-437): for each
record, `matched_exons = exons_match_sam_record(record=r, exons=exons,
tolerate_end=tolerate_end)` (so `ok_to_miss_matches` is False), then
`for _exon in matched_exons` fills the row.  The loop performs NO None
check: when `exons_match_sam_record` returns `None`, iterating it raises
`TypeError`; embedded as `.error .typeError`. -/
def collapse_build_result (matching : Itv → Int → Int → Option (List MatchNode))
    (mat_size : Nat) (tolerate_end : Int) :
    List GmapRecord → Except PyErr (List (String × Char × List Int))
  | [] => .ok []
  | r :: rs =>
      match exons_match_sam_record matching r.segments 0 tolerate_end false with
      | .error e => .error e
      | .ok none => .error .typeError
      | .ok (some nodes) =>
          match collapse_build_result matching mat_size tolerate_end rs with
          | .error e => .error e
          | .ok rows => .ok ((r.qID, r.strand, collapseBuildRow mat_size nodes) :: rows)

/-- C2 counterexample: with a matching capability that finds no exon for a
segment, `exons_match_sam_record` rejects the whole record (`None`), and the
per-record loop of `collapse_sam_records` -- far from dropping the record
and continuing -- raises `TypeError` for the locus: the alignment is not
dropped from the merge pool. -/
theorem C2_counterexample :
    exons_match_sam_record (fun _ _ _ => none) [⟨0, 10⟩] 0 100 false =
      .ok none ∧
    collapse_build_result (fun _ _ _ => none) 1 100
      [⟨"r1", "chr1", 0, 10, '+', [⟨0, 10⟩]⟩] = .error .typeError := by
  constructor <;> rfl

/-- C2 amended: whenever `exons_match_sam_record` fails for some alignment
of the locus (returns `None`: a segment without a match, or a non-monotonic
match, with `ok_to_miss_matches` false), the record-encoding loop of
`collapse_sam_records` raises (TypeError on the first such alignment, or an
earlier error): it never yields a merge pool with the failing alignment
dropped. -/
theorem C2_failing_alignment_aborts
    (matching : Itv → Int → Int → Option (List MatchNode))
    (mat_size : Nat) (tolerate_end : Int) (records : List GmapRecord)
    (hfail : ∃ r ∈ records,
      exons_match_sam_record matching r.segments 0 tolerate_end false = .ok none) :
    ∃ e, collapse_build_result matching mat_size tolerate_end records =
      .error e := by
  induction records with
  | nil => simp at hfail
  | cons r rs ih =>
      rcases hfail with ⟨r0, hr0, hfail0⟩
      rw [collapse_build_result]
      cases hm : exons_match_sam_record matching r.segments 0 tolerate_end false with
      | error e => exact ⟨e, rfl⟩
      | ok o =>
          cases o with
          | none => exact ⟨.typeError, rfl⟩
          | some nodes =>
              rcases List.mem_cons.mp hr0 with hr | hr
              · rw [hr] at hfail0
                rw [hfail0] at hm
                exact absurd hm (by simp)
              · rcases ih ⟨r0, hr, hfail0⟩ with ⟨e, he⟩
                rw [he]
                exact ⟨e, rfl⟩

/-- Witness for the amended C2 theorem, at the counterexample input. -/
theorem C2_failing_alignment_aborts_witness :
    (∃ r ∈ [(⟨"r1", "chr1", 0, 10, '+', [⟨0, 10⟩]⟩ : GmapRecord)],
      exons_match_sam_record (fun _ _ _ => none) r.segments 0 100 false =
        .ok none) ∧
    ∃ e, collapse_build_result (fun _ _ _ => none) 1 100
      [⟨"r1", "chr1", 0, 10, '+', [⟨0, 10⟩]⟩] = .error e :=
  ⟨⟨_, List.mem_singleton.mpr rfl, rfl⟩,
    C2_failing_alignment_aborts (fun _ _ _ => none) 1 100
      [⟨"r1", "chr1", 0, 10, '+', [⟨0, 10⟩]⟩]
      ⟨_, List.mem_singleton.mpr rfl, rfl⟩⟩

/-! ## Representative selection in `collapse_fuzzy_junctions`
(lines 670-689) -/

/-- The `for pbid in fuzzy_match[k][1:]` scan (lines 678-685): threads
`(best_pbid, best_size, best_num_exons, all_members)`.  `group_info` embeds
the group table (`None` = pbid absent, a `ValueError`), `numExons` embeds
`len(d[pbid].ref_exons)` (`None` = pbid absent from `d`, a `KeyError`). -/
def pickRepGo (group_info : String → Option (List String))
    (numExons : String → Option Nat) :
    List String → String × Int × Nat × List String →
      Except String (String × Int × Nat × List String)
  | [], st => .ok st
  | pbid :: rest, (best, bsize, bexons, acc) =>
      match group_info pbid with
      | none => .error "Could not find in Group file"
      | some mems =>
          match get_fl_from_id mems with
          | .error e => .error e
          | .ok fl =>
              match numExons pbid with
              | none => .error "KeyError"
              | some ne =>
                  if ne > bexons ∨ (ne = bexons ∧ fl > bsize) then
                    pickRepGo group_info numExons rest (pbid, fl, ne, acc ++ mems)
                  else
                    pickRepGo group_info numExons rest (best, bsize, bexons, acc ++ mems)

/-- The per-group representative selection of `collapse_fuzzy_junctions`
(lines 670-685): the first-inserted member seeds the scan with
`best_size = len(group_info[best_pbid])` -- the SIZE OF ITS MEMBER LIST --
while every later member is measured by `get_fl_from_id`. -/
def pickRepFold (group_info : String → Option (List String))
    (numExons : String → Option Nat) (group : List String) :
    Except String (String × Int × Nat × List String) :=
  match group with
  | [] => .error "IndexError"
  | k0 :: rest =>
      match group_info k0 with
      | none => .error "Could not find in Group file"
      | some mem0 =>
          match numExons k0 with
          | none => .error "KeyError"
          | some ne0 =>
              pickRepGo group_info numExons rest
                (k0, (mem0.length : Int), ne0, mem0)

/-- The selection rule as the spec states it (modelled from the spec):
identical scan, except that the first member is seeded with its summed
full-length count, so the exon-count-then-FL-count rule applies uniformly
to every member. -/
def specPickRepFold (group_info : String → Option (List String))
    (numExons : String → Option Nat) (group : List String) :
    Except String (String × Int × Nat × List String) :=
  match group with
  | [] => .error "IndexError"
  | k0 :: rest =>
      match group_info k0 with
      | none => .error "Could not find in Group file"
      | some mem0 =>
          match get_fl_from_id mem0 with
          | .error e => .error e
          | .ok fl0 =>
              match numExons k0 with
              | none => .error "KeyError"
              | some ne0 =>
                  pickRepGo group_info numExons rest (k0, fl0, ne0, mem0)

/-- C3: the tie-break is NOT uniform.  Group `[PB.1.1, PB.1.2]` with equal
exon counts, where `PB.1.1` is supported by one read carrying `f5p0`
(summed FL count 5, member-list length 1) and `PB.1.2` by two reads
carrying `f2p0` (summed FL count 4, member-list length 2): the code seeds
the incumbent with its member-list LENGTH (1), so `PB.1.2` (4 > 1) wins,
although under the uniform summed-FL rule stated by the spec and by the
in-source comment ("if tie, then most FL") `PB.1.1` (5 > 4) must win. -/
theorem C3_tiebreak_not_uniform :
    (pickRepFold
        (fun s => if s = "PB.1.1" then some ["a/f5p0/100"]
          else if s = "PB.1.2" then some ["b/f2p0/100", "c/f2p0/100"] else none)
        (fun _ => some 3) ["PB.1.1", "PB.1.2"]).map (fun st => st.1) =
      .ok "PB.1.2" ∧
    (specPickRepFold
        (fun s => if s = "PB.1.1" then some ["a/f5p0/100"]
          else if s = "PB.1.2" then some ["b/f2p0/100", "c/f2p0/100"] else none)
        (fun _ => some 3) ["PB.1.1", "PB.1.2"]).map (fun st => st.1) =
      .ok "PB.1.1" := by
  constructor <;> rfl

/-! ## `compare_exon_matrix` (CollapsingUtils.py, lines 277-350) -/

/-- Failure modes of `compare_exon_matrix`: an out-of-range index
(`l1[0]`/`l2[0]` on an all-zero matrix), a node id absent from `node_d`
(Python `KeyError`), the two `assert` statements, the numpy shape mismatch
in the slice addition, and the final `raise Exception, "Should not
happen"`. -/
inductive CmpErr where
  | indexError
  | missingNode
  | assertFailed
  | broadcastError
  | shouldNotHappen
  deriving DecidableEq, Repr

/-- `m.nonzero()[1]` on the 1-row matrix: the indices of nonzero entries,
in increasing order. -/
def nonzeroIdx (m : List Int) : List Nat :=
  (List.range m.length).filter (fun k => m.getD k 0 ≠ 0)

/-- The first `for i in xrange(n1)` scan of `compare_exon_matrix`
(lines 309-317): stops (`.inr i`) at the first `l1[i] == l2[0]`, or with
`i = n1-1` when the loop exhausts; `.inl ()` embeds the early
`return False, None` when a 3-prime-side (or, with `merge5` unset,
5-prime-side) junction disagrees. -/
def iScan (node_d : Nat → Option Itv) (strand : Char) (merge5 : Bool)
    (l1 : List Nat) (l2h : Nat) (i : Nat) : Except CmpErr (Sum Unit Nat) :=
  if i < l1.length then
    if l1.getD i 0 = l2h then .ok (.inr i)
    else if i > 0 ∧ strand = '-' then
      match node_d (l1.getD (i - 1) 0), node_d (l1.getD i 0) with
      | some a, some b =>
          if a.stop ≠ b.start then .ok (.inl ())
          else iScan node_d strand merge5 l1 l2h (i + 1)
      | _, _ => .error .missingNode
    else if i > 0 ∧ strand = '+' ∧ merge5 = false then
      match node_d (l1.getD (i - 1) 0), node_d (l1.getD i 0) with
      | some a, some b =>
          if a.stop ≠ b.start then .ok (.inl ())
          else iScan node_d strand merge5 l1 l2h (i + 1)
      | _, _ => .error .missingNode
    else iScan node_d strand merge5 l1 l2h (i + 1)
  else .ok (.inr (l1.length - 1))
termination_by l1.length - i

/-- The second loop (lines 321-324): `True` iff some `l1[j] != l2[j-i]` for
`j` in `range(i, min(n1, n2+i))` (the early `return False, None`). -/
def jMismatch (l1 l2 : List Nat) (i j : Nat) : Bool :=
  if j < min l1.length (l2.length + i) then
    if l1.getD j 0 ≠ l2.getD (j - i) 0 then true
    else jMismatch l1 l2 i (j + 1)
  else false
termination_by min l1.length (l2.length + i) - j

/-- The trailing-exon adjacency scan shared by the two tail branches
(lines 331-337 over `l2`, lines 341-347 over `l1`): for `k` in
`[k0, stop)`, on strand `+` (case 1) or on strand `-` with `merge5` unset
(case 2), a gap between node `l[k-1]` and node `l[k]` yields `True`
(the early `return False, None`). -/
def kCheck (node_d : Nat → Option Itv) (strand : Char) (merge5 : Bool)
    (l : List Nat) (stop_ k : Nat) : Except CmpErr Bool :=
  if k < stop_ then
    if strand = '+' then
      match node_d (l.getD (k - 1) 0), node_d (l.getD k 0) with
      | some a, some b =>
          if a.stop ≠ b.start then .ok true
          else kCheck node_d strand merge5 l stop_ (k + 1)
      | _, _ => .error .missingNode
    else if strand = '-' ∧ merge5 = false then
      match node_d (l.getD (k - 1) 0), node_d (l.getD k 0) with
      | some a, some b =>
          if a.stop ≠ b.start then .ok true
          else kCheck node_d strand merge5 l stop_ (k + 1)
      | _, _ => .error .missingNode
    else kCheck node_d strand merge5 l stop_ (k + 1)
  else .ok false
termination_by stop_ - k

/-- The numpy slice update `m1[0, p:] = m1[0, p:] + m2[0, p:]` (line 338),
for matrices of one width. -/
def mergeFrom (m1 m2 : List Int) (p : Nat) : List Int :=
  m1.mapIdx (fun k x => if p ≤ k then x + m2.getD k 0 else x)

/-- The body of `compare_exon_matrix` after the nonzero-index extraction
and the `l1`/`l2` swap: `l1` starts no later than `l2`; `m1`/`m2` keep
their original roles (the Python swap exchanges only the index lists). -/
def cemCore (m1 m2 : List Int) (node_d : Nat → Option Itv) (strand : Char)
    (merge5 : Bool) (l1 l2 : List Nat) : Except CmpErr (Bool × Option (List Int)) :=
  if l1.getLastD 0 < l2.headD 0 then .ok (false, none)
  else
    match iScan node_d strand merge5 l1 (l2.headD 0) 0 with
    | .error e => .error e
    | .ok (.inl _) => .ok (false, none)
    | .ok (.inr i) =>
        if min l1.length (l2.length + i) ≤ i then .error .assertFailed
        else
          if jMismatch l1 l2 i i then .ok (false, none)
          else
            if min l1.length (l2.length + i) - 1 = l1.length - 1 then
              if (min l1.length (l2.length + i) - 1) - i = l2.length - 1 then
                .ok (true, some m1)
              else
                match kCheck node_d strand merge5 l2 l2.length
                    ((min l1.length (l2.length + i) - 1) - i + 1) with
                | .error e => .error e
                | .ok true => .ok (false, none)
                | .ok false =>
                    if m1.length = m2.length then
                      .ok (true, some (mergeFrom m1 m2
                        (l2.getD ((min l1.length (l2.length + i) - 1) - i + 1) 0)))
                    else .error .broadcastError
            else
              if (min l1.length (l2.length + i) - 1) - i = l2.length - 1 then
                match kCheck node_d strand merge5 l1 l1.length
                    ((min l1.length (l2.length + i) - 1) + 1) with
                | .error e => .error e
                | .ok true => .ok (false, none)
                | .ok false => .ok (true, some m1)
              else .error .shouldNotHappen

/-- Embeds `compare_exon_matrix(m1, m2, node_d, strand, merge5)`
(lines 277-350).  The matrices are 1-row int arrays (modelled by their
row); `node_d` is the exon-id-to-interval map (`None` = `KeyError`).
`l1[0]`/`l2[0]` on an empty nonzero list is the `IndexError`; the `assert
i is not None` cannot fail once `l1` is nonempty (a `for` over a nonempty
range always binds its variable), while `assert j is not None` fails
exactly when the second loop's range is empty. -/
def compare_exon_matrix (m1 m2 : List Int) (node_d : Nat → Option Itv)
    (strand : Char) (merge5 : Bool) : Except CmpErr (Bool × Option (List Int)) :=
  match nonzeroIdx m1, nonzeroIdx m2 with
  | [], _ => .error .indexError
  | _ :: _, [] => .error .indexError
  | a1 :: t1, a2 :: t2 =>
      if a2 < a1 then cemCore m1 m2 node_d strand merge5 (a2 :: t2) (a1 :: t1)
      else cemCore m1 m2 node_d strand merge5 (a1 :: t1) (a2 :: t2)

theorem getD_mem_nat (l : List Nat) (n : Nat) (h : n < l.length) :
    l.getD n 0 ∈ l := by
  rw [List.getD_eq_getElem _ _ h]
  exact List.getElem_mem h

/-- The first scan of `compare_exon_matrix` never raises when every listed
exon id is in the node map. -/
theorem iScan_ok (node_d : Nat → Option Itv) (strand : Char) (merge5 : Bool)
    (l1 : List Nat) (l2h : Nat) (hn : ∀ x ∈ l1, (node_d x).isSome) :
    ∀ i, ∃ r, iScan node_d strand merge5 l1 l2h i = .ok r := by
  have H : ∀ fuel i, l1.length - i ≤ fuel →
      ∃ r, iScan node_d strand merge5 l1 l2h i = .ok r := by
    intro fuel
    induction fuel with
    | zero =>
        intro i h
        rw [iScan, if_neg (by omega : ¬ i < l1.length)]
        exact ⟨_, rfl⟩
    | succ n ih =>
        intro i h
        rw [iScan]
        by_cases hi : i < l1.length
        · rw [if_pos hi]
          by_cases heq : l1.getD i 0 = l2h
          · rw [if_pos heq]; exact ⟨_, rfl⟩
          · rw [if_neg heq]
            have hm1 : (node_d (l1.getD (i - 1) 0)).isSome :=
              hn _ (getD_mem_nat l1 (i - 1) (by omega))
            have hm2 : (node_d (l1.getD i 0)).isSome :=
              hn _ (getD_mem_nat l1 i hi)
            obtain ⟨a, ha⟩ := Option.isSome_iff_exists.mp hm1
            obtain ⟨b, hb⟩ := Option.isSome_iff_exists.mp hm2
            by_cases hc1 : i > 0 ∧ strand = '-'
            · rw [if_pos hc1]
              simp only [ha, hb]
              by_cases hne : a.stop ≠ b.start
              · rw [if_pos hne]; exact ⟨_, rfl⟩
              · rw [if_neg hne]; exact ih (i + 1) (by omega)
            · rw [if_neg hc1]
              by_cases hc2 : i > 0 ∧ strand = '+' ∧ merge5 = false
              · rw [if_pos hc2]
                simp only [ha, hb]
                by_cases hne : a.stop ≠ b.start
                · rw [if_pos hne]; exact ⟨_, rfl⟩
                · rw [if_neg hne]; exact ih (i + 1) (by omega)
              · rw [if_neg hc2]; exact ih (i + 1) (by omega)
        · rw [if_neg hi]; exact ⟨_, rfl⟩
  exact fun i => H (l1.length - i) i (by omega)

/-- A successful first scan stops within the list (for a nonempty list). -/
theorem iScan_inr_lt (node_d : Nat → Option Itv) (strand : Char) (merge5 : Bool)
    (l1 : List Nat) (l2h : Nat) (hl1 : l1 ≠ []) :
    ∀ i0 i, iScan node_d strand merge5 l1 l2h i0 = .ok (.inr i) →
      i < l1.length := by
  have hlen : 1 ≤ l1.length := by
    cases l1
    · simp at hl1
    · simp
  have H : ∀ fuel i0 i, l1.length - i0 ≤ fuel →
      iScan node_d strand merge5 l1 l2h i0 = .ok (.inr i) → i < l1.length := by
    intro fuel
    induction fuel with
    | zero =>
        intro i0 i h hscan
        rw [iScan, if_neg (by omega : ¬ i0 < l1.length)] at hscan
        simp only [Except.ok.injEq, Sum.inr.injEq] at hscan
        omega
    | succ n ih =>
        intro i0 i h hscan
        rw [iScan] at hscan
        by_cases hi : i0 < l1.length
        · rw [if_pos hi] at hscan
          by_cases heq : l1.getD i0 0 = l2h
          · rw [if_pos heq] at hscan
            simp only [Except.ok.injEq, Sum.inr.injEq] at hscan
            omega
          · rw [if_neg heq] at hscan
            by_cases hc1 : i0 > 0 ∧ strand = '-'
            · rw [if_pos hc1] at hscan
              cases ha : node_d (l1.getD (i0 - 1) 0) with
              | none => rw [ha] at hscan; cases hb : node_d (l1.getD i0 0) <;>
                  rw [hb] at hscan <;> simp at hscan
              | some a =>
                  cases hb : node_d (l1.getD i0 0) with
                  | none => simp only [ha, hb] at hscan; simp at hscan
                  | some b =>
                      simp only [ha, hb] at hscan
                      by_cases hne : a.stop ≠ b.start
                      · rw [if_pos hne] at hscan; simp at hscan
                      · rw [if_neg hne] at hscan
                        exact ih (i0 + 1) i (by omega) hscan
            · rw [if_neg hc1] at hscan
              by_cases hc2 : i0 > 0 ∧ strand = '+' ∧ merge5 = false
              · rw [if_pos hc2] at hscan
                cases ha : node_d (l1.getD (i0 - 1) 0) with
                | none => rw [ha] at hscan; cases hb : node_d (l1.getD i0 0) <;>
                    rw [hb] at hscan <;> simp at hscan
                | some a =>
                    cases hb : node_d (l1.getD i0 0) with
                    | none => simp only [ha, hb] at hscan; simp at hscan
                    | some b =>
                        simp only [ha, hb] at hscan
                        by_cases hne : a.stop ≠ b.start
                        · rw [if_pos hne] at hscan; simp at hscan
                        · rw [if_neg hne] at hscan
                          exact ih (i0 + 1) i (by omega) hscan
              · rw [if_neg hc2] at hscan
                exact ih (i0 + 1) i (by omega) hscan
        · rw [if_neg hi] at hscan
          simp only [Except.ok.injEq, Sum.inr.injEq] at hscan
          omega
  exact fun i0 i => H (l1.length - i0) i0 i (by omega)

/-- The adjacency scan never raises when every listed exon id is in the node
map and the bound stays within the list. -/
theorem kCheck_ok (node_d : Nat → Option Itv) (strand : Char) (merge5 : Bool)
    (l : List Nat) (stop_ : Nat) (hn : ∀ x ∈ l, (node_d x).isSome)
    (hstop : stop_ ≤ l.length) :
    ∀ k, ∃ b, kCheck node_d strand merge5 l stop_ k = .ok b := by
  have H : ∀ fuel k, stop_ - k ≤ fuel →
      ∃ b, kCheck node_d strand merge5 l stop_ k = .ok b := by
    intro fuel
    induction fuel with
    | zero =>
        intro k h
        rw [kCheck, if_neg (by omega : ¬ k < stop_)]
        exact ⟨_, rfl⟩
    | succ n ih =>
        intro k h
        rw [kCheck]
        by_cases hk : k < stop_
        · rw [if_pos hk]
          have hm1 : (node_d (l.getD (k - 1) 0)).isSome :=
            hn _ (getD_mem_nat l (k - 1) (by omega))
          have hm2 : (node_d (l.getD k 0)).isSome :=
            hn _ (getD_mem_nat l k (by omega))
          obtain ⟨a, ha⟩ := Option.isSome_iff_exists.mp hm1
          obtain ⟨b, hb⟩ := Option.isSome_iff_exists.mp hm2
          by_cases hplus : strand = '+'
          · rw [if_pos hplus]
            simp only [ha, hb]
            by_cases hne : a.stop ≠ b.start
            · rw [if_pos hne]; exact ⟨_, rfl⟩
            · rw [if_neg hne]; exact ih (k + 1) (by omega)
          · rw [if_neg hplus]
            by_cases hminus : strand = '-' ∧ merge5 = false
            · rw [if_pos hminus]
              simp only [ha, hb]
              by_cases hne : a.stop ≠ b.start
              · rw [if_pos hne]; exact ⟨_, rfl⟩
              · rw [if_neg hne]; exact ih (k + 1) (by omega)
            · rw [if_neg hminus]; exact ih (k + 1) (by omega)
        · rw [if_neg hk]; exact ⟨_, rfl⟩
  exact fun k => H (stop_ - k) k (by omega)

/-- Totality of the core of `compare_exon_matrix`: with nonempty index
lists, a node map covering them, and matrices of one width, every branch
returns an `ok` value (in particular the final `raise` and the asserts are
unreachable). -/
theorem cemCore_ok (m1 m2 : List Int) (node_d : Nat → Option Itv)
    (strand : Char) (merge5 : Bool) (l1 l2 : List Nat)
    (hl1 : l1 ≠ []) (hl2 : l2 ≠ [])
    (hn1 : ∀ x ∈ l1, (node_d x).isSome) (hn2 : ∀ x ∈ l2, (node_d x).isSome)
    (hlen : m1.length = m2.length) :
    ∃ r, cemCore m1 m2 node_d strand merge5 l1 l2 = .ok r := by
  have hlen1 : 1 ≤ l1.length := List.length_pos.mpr hl1
  have hlen2 : 1 ≤ l2.length := List.length_pos.mpr hl2
  unfold cemCore
  by_cases hfirst : l1.getLastD 0 < l2.headD 0
  · rw [if_pos hfirst]; exact ⟨_, rfl⟩
  · rw [if_neg hfirst]
    split
    next e heq =>
      obtain ⟨r0, his⟩ := iScan_ok node_d strand merge5 l1 (l2.headD 0) hn1 0
      rw [his] at heq
      exact absurd heq (by simp)
    next u heq => exact ⟨_, rfl⟩
    next i heq =>
      have hi : i < l1.length :=
        iScan_inr_lt node_d strand merge5 l1 (l2.headD 0) hl1 0 i heq
      rw [if_neg (by omega : ¬ min l1.length (l2.length + i) ≤ i)]
      by_cases hjm : jMismatch l1 l2 i i
      · rw [if_pos hjm]; exact ⟨_, rfl⟩
      · rw [if_neg hjm]
        by_cases hb1 : min l1.length (l2.length + i) - 1 = l1.length - 1
        · rw [if_pos hb1]
          by_cases hb2 : (min l1.length (l2.length + i) - 1) - i = l2.length - 1
          · rw [if_pos hb2]; exact ⟨_, rfl⟩
          · rw [if_neg hb2]
            obtain ⟨b, hk⟩ := kCheck_ok node_d strand merge5 l2 l2.length hn2
              (le_refl _) ((min l1.length (l2.length + i) - 1) - i + 1)
            split
            next e heq2 =>
              rw [hk] at heq2
              exact absurd heq2 (by simp)
            next heq2 => exact ⟨_, rfl⟩
            next heq2 =>
              rw [if_pos hlen]; exact ⟨_, rfl⟩
        · rw [if_neg hb1]
          have hb2 : (min l1.length (l2.length + i) - 1) - i = l2.length - 1 := by
            rcases Nat.le_total l1.length (l2.length + i) with hmn | hmn
            · rw [Nat.min_eq_left hmn] at hb1
              exact absurd rfl hb1
            · rw [Nat.min_eq_right hmn]
              omega
          rw [if_pos hb2]
          obtain ⟨b, hk⟩ := kCheck_ok node_d strand merge5 l1 l1.length hn1
            (le_refl _) ((min l1.length (l2.length + i) - 1) + 1)
          split
          next e heq2 =>
            rw [hk] at heq2
            exact absurd heq2 (by simp)
          next heq2 => exact ⟨_, rfl⟩
          next heq2 => exact ⟨_, rfl⟩

/-- C9: for matrices of one width each having a set bit, under a node map
defined on every set index, `compare_exon_matrix` always returns an
ordinary `(False, None)` or `(True, merged)` result: the `KeyError`,
`IndexError`, failing-assert, shape-mismatch and `"Should not happen"`
paths are all unreachable. -/
theorem C9_compare_exon_matrix_total (m1 m2 : List Int)
    (node_d : Nat → Option Itv) (strand : Char) (merge5 : Bool)
    (h1 : nonzeroIdx m1 ≠ []) (h2 : nonzeroIdx m2 ≠ [])
    (hlen : m1.length = m2.length)
    (hnode : ∀ idx, (idx ∈ nonzeroIdx m1 ∨ idx ∈ nonzeroIdx m2) →
      (node_d idx).isSome) :
    ∃ r, compare_exon_matrix m1 m2 node_d strand merge5 = .ok r := by
  unfold compare_exon_matrix
  have hn1 : ∀ x ∈ nonzeroIdx m1, (node_d x).isSome :=
    fun x hx => hnode x (Or.inl hx)
  have hn2 : ∀ x ∈ nonzeroIdx m2, (node_d x).isSome :=
    fun x hx => hnode x (Or.inr hx)
  cases hl1 : nonzeroIdx m1 with
  | nil => exact absurd hl1 h1
  | cons a1 t1 =>
      cases hl2 : nonzeroIdx m2 with
      | nil => exact absurd hl2 h2
      | cons a2 t2 =>
          rw [hl1] at hn1
          rw [hl2] at hn2
          show ∃ r,
            (if a2 < a1 then cemCore m1 m2 node_d strand merge5 (a2 :: t2) (a1 :: t1)
             else cemCore m1 m2 node_d strand merge5 (a1 :: t1) (a2 :: t2)) =
              Except.ok r
          by_cases hswap : a2 < a1
          · rw [if_pos hswap]
            exact cemCore_ok m1 m2 node_d strand merge5 (a2 :: t2) (a1 :: t1)
              (by simp) (by simp) hn2 hn1 hlen
          · rw [if_neg hswap]
            exact cemCore_ok m1 m2 node_d strand merge5 (a1 :: t1) (a2 :: t2)
              (by simp) (by simp) hn1 hn2 hlen

/-- Witness for C9 at a concrete pair of matrices and a concrete node map. -/
theorem C9_compare_exon_matrix_total_witness :
    (nonzeroIdx [1, 1, 0] ≠ [] ∧ nonzeroIdx [0, 1, 1] ≠ [] ∧
      ([1, 1, 0] : List Int).length = ([0, 1, 1] : List Int).length) ∧
    ∃ r, compare_exon_matrix [1, 1, 0] [0, 1, 1]
      (fun k => if k ≤ 2 then some ⟨(k : Int) * 10, (k : Int) * 10 + 10⟩ else none)
      '+' true = .ok r :=
  ⟨⟨by decide, by decide, by decide⟩,
    C9_compare_exon_matrix_total [1, 1, 0] [0, 1, 1]
      (fun k => if k ≤ 2 then some ⟨(k : Int) * 10, (k : Int) * 10 + 10⟩ else none)
      '+' true (by decide) (by decide) (by decide)
      (by
        intro idx hidx
        have e1 : nonzeroIdx [(1 : Int), 1, 0] = [0, 1] := by rfl
        have e2 : nonzeroIdx [(0 : Int), 1, 1] = [1, 2] := by rfl
        have hle : idx ≤ 2 := by
          rcases hidx with h | h
          · rw [e1] at h; simp at h; omega
          · rw [e2] at h; simp at h; omega
        simp [hle])⟩

/-! ## `iterative_merge_transcripts` (CollapsingUtils.py, lines 353-374) -/

/-- One entry of `result_list`: `(qID, strand, binary exon sparse matrix)`,
the one-row matrix modelled by its row. -/
abbrev MEntry := String × Char × List Int

/-- Out-of-range default entry (never read: all accesses are guarded). -/
def dEntry : MEntry := ("", ' ', [])

/-- The comparison behind `result_list.sort(key=lambda x: (x[1],
x[2].nonzero()[1][0]))` (line 358): lexicographic on the key
(strand, first nonzero column index). -/
def entryKeyLe (a b : MEntry) : Prop :=
  a.2.1 < b.2.1 ∨ (a.2.1 = b.2.1 ∧
    (nonzeroIdx a.2.2).headD 0 ≤ (nonzeroIdx b.2.2).headD 0)

instance decEntryKeyLe : DecidableRel entryKeyLe := fun a b =>
  inferInstanceAs (Decidable (a.2.1 < b.2.1 ∨ (a.2.1 = b.2.1 ∧
    (nonzeroIdx a.2.2).headD 0 ≤ (nonzeroIdx b.2.2).headD 0)))

/-- The inner `while j < len(result_list)` loop of
`iterative_merge_transcripts` (lines 361-372).  The `or` in the `break`
guard short-circuits, so the `nonzero()` index expressions (an
`IndexError` on an all-zero matrix) are evaluated only when the strands
agree; a successful merge replaces entry `i` by the merged entry and pops
entry `j`. -/
def innerIM (node_d : Nat → Option Itv) (merge5 : Bool)
    (recs : List MEntry) (i j : Nat) : Except CmpErr (List MEntry) :=
  if h : j < recs.length then
    if (recs.getD i dEntry).2.1 ≠ (recs.getD j dEntry).2.1 then .ok recs
    else
      match (nonzeroIdx (recs.getD i dEntry).2.2).getLast?,
          (nonzeroIdx (recs.getD j dEntry).2.2).head? with
      | some a, some b =>
          if a < b then .ok recs
          else
            match compare_exon_matrix (recs.getD i dEntry).2.2
                (recs.getD j dEntry).2.2 node_d (recs.getD i dEntry).2.1
                merge5 with
            | .error e => .error e
            | .ok (true, m3) =>
                innerIM node_d merge5
                  ((recs.set i ((recs.getD i dEntry).1 ++ "," ++
                      (recs.getD j dEntry).1,
                    (recs.getD i dEntry).2.1, m3.getD [])).eraseIdx j) i j
            | .ok (false, _) => innerIM node_d merge5 recs i (j + 1)
      | _, _ => .error .indexError
  else .ok recs
termination_by recs.length - j
decreasing_by
  · rw [List.length_eraseIdx]
    simp only [List.length_set]
    split <;> omega
  · omega

/-- The inner merge loop never lengthens the entry list. -/
theorem innerIM_length_le_aux (node_d : Nat → Option Itv) (merge5 : Bool) :
    ∀ (n : Nat) (recs : List MEntry) (i j : Nat) (out : List MEntry),
      recs.length - j ≤ n → innerIM node_d merge5 recs i j = .ok out →
      out.length ≤ recs.length := by
  intro n
  induction n with
  | zero =>
      intro recs i j out h hok
      rw [innerIM, dif_neg (by omega : ¬ j < recs.length)] at hok
      cases hok
      exact le_refl _
  | succ n ih =>
      intro recs i j out h hok
      rw [innerIM] at hok
      by_cases hj : j < recs.length
      · rw [dif_pos hj] at hok
        by_cases hs : (recs.getD i dEntry).2.1 ≠ (recs.getD j dEntry).2.1
        · rw [if_pos hs] at hok; cases hok; exact le_refl _
        · rw [if_neg hs] at hok
          split at hok
          next a b heqa heqb =>
            by_cases hab : a < b
            · rw [if_pos hab] at hok; cases hok; exact le_refl _
            · rw [if_neg hab] at hok
              split at hok
              next e heqc => simp at hok
              next m3 heqc =>
                have hlen : ((recs.set i ((recs.getD i dEntry).1 ++ "," ++
                      (recs.getD j dEntry).1,
                    (recs.getD i dEntry).2.1, m3.getD [])).eraseIdx j).length =
                    recs.length - 1 := by
                  rw [List.length_eraseIdx]
                  simp only [List.length_set]
                  split <;> omega
                exact le_trans (ih _ i j out (by omega) hok) (by omega)
              next snd heqc =>
                exact ih recs i (j + 1) out (by omega) hok
          next => simp at hok
      · rw [dif_neg hj] at hok; cases hok; exact le_refl _

/-- Fuel-free form of `innerIM_length_le_aux`. -/
theorem innerIM_length_le (node_d : Nat → Option Itv) (merge5 : Bool)
    (recs : List MEntry) (i j : Nat) (out : List MEntry)
    (hok : innerIM node_d merge5 recs i j = .ok out) :
    out.length ≤ recs.length :=
  innerIM_length_le_aux node_d merge5 recs.length recs i j out (by omega) hok

/-- The outer `while i < len(result_list) - 1` loop of
`iterative_merge_transcripts` (lines 359-373). -/
def outerIM (node_d : Nat → Option Itv) (merge5 : Bool)
    (recs : List MEntry) (i : Nat) : Except CmpErr (List MEntry) :=
  if i < recs.length - 1 then
    match h2 : innerIM node_d merge5 recs i (i + 1) with
    | .error e => .error e
    | .ok recs2 => outerIM node_d merge5 recs2 (i + 1)
  else .ok recs
termination_by recs.length - i
decreasing_by
  have := innerIM_length_le node_d merge5 recs i (i + 1) recs2 h2
  omega

/-- Embeds `iterative_merge_transcripts(result_list, node_d, merge5)`
(lines 353-374).  The initial in-place sort evaluates the key `(strand,
first nonzero column index)` of every entry, so an all-zero matrix raises
`IndexError` up front; the Python function mutates `result_list` in
place, the embedding returns the final list. -/
def iterative_merge_transcripts (result_list : List MEntry)
    (node_d : Nat → Option Itv) (merge5 : Bool) :
    Except CmpErr (List MEntry) :=
  if result_list.all (fun e => !(nonzeroIdx e.2.2).isEmpty) then
    outerIM node_d merge5 (List.insertionSort entryKeyLe result_list) 0
  else .error .indexError

/-- Splits a character list at commas (the component structure that
Python id concatenation `id1+","+id2` builds up); `acc` holds the
current component reversed. -/
def splitCommaAux : List Char → List Char → List (List Char)
  | [], acc => [acc.reverse]
  | c :: cs, acc =>
      if c = ',' then acc.reverse :: splitCommaAux cs []
      else splitCommaAux cs (c :: acc)

/-- The comma-separated id components of an entry, each tagged with the
entry strand. -/
def entryComps (e : MEntry) : List (String × Char) :=
  (splitCommaAux e.1.data []).map (fun cs => (String.mk cs, e.2.1))

/-- All (id component, strand) pairs carried by an entry list. -/
def allComps (recs : List MEntry) : List (String × Char) :=
  (recs.map entryComps).flatten

theorem allComps_cons (a : MEntry) (t : List MEntry) :
    allComps (a :: t) = entryComps a ++ allComps t := by
  simp [allComps]

theorem splitCommaAux_append (xs : List Char) :
    ∀ acc ys : List Char,
      splitCommaAux (xs ++ ',' :: ys) acc =
        splitCommaAux xs acc ++ splitCommaAux ys [] := by
  induction xs with
  | nil => intro acc ys; simp [splitCommaAux]
  | cons c cs ih =>
      intro acc ys
      by_cases hc : c = ','
      · subst hc; simp [splitCommaAux, ih]
      · simp [splitCommaAux, hc, ih]

theorem splitCommaAux_no_comma (xs : List Char) :
    ∀ acc : List Char, ',' ∉ xs →
      splitCommaAux xs acc = [acc.reverse ++ xs] := by
  induction xs with
  | nil => intro acc h; simp [splitCommaAux]
  | cons c cs ih =>
      intro acc h
      rw [List.mem_cons, not_or] at h
      obtain ⟨h1, h2⟩ := h
      rw [splitCommaAux, if_neg (fun hh => h1 hh.symm), ih (c :: acc) h2]
      simp

theorem stringMkData (s : String) : String.mk s.data = s := by
  cases s; rfl

theorem string_comma_data (s t : String) :
    (s ++ "," ++ t).data = s.data ++ ',' :: t.data := by
  rw [String.data_append, String.data_append]
  simp

/-- Concatenating two ids with a comma concatenates their component
lists; the merged entry carries the left strand, which equals the right
strand at every merge site. -/
theorem entryComps_merge (e1 e2 : MEntry) (m : List Int)
    (hs : e1.2.1 = e2.2.1) :
    entryComps (e1.1 ++ "," ++ e2.1, e1.2.1, m) =
      entryComps e1 ++ entryComps e2 := by
  unfold entryComps
  rw [hs]
  simp only [string_comma_data, splitCommaAux_append, List.map_append]

/-- Pulling one entry out of the component multiset. -/
theorem allComps_extract :
    ∀ (t : List MEntry) (j : Nat), j < t.length →
      List.Perm (allComps t)
        (entryComps (t.getD j dEntry) ++ allComps (t.eraseIdx j)) := by
  intro t
  induction t with
  | nil => intro j hj; simp at hj
  | cons a t ih =>
      intro j hj
      cases j with
      | zero => simp [allComps_cons]
      | succ j =>
          have hj2 : j < t.length := by simpa using hj
          simp only [List.getD_cons_succ, List.eraseIdx_cons_succ,
            allComps_cons]
          refine ((ih j hj2).append_left (entryComps a)).trans ?_
          rw [← List.append_assoc, ← List.append_assoc]
          exact List.perm_append_comm.append_right _

/-- Replacing entry `i` by an entry whose components are those of
entries `i` and `j` combined, then deleting entry `j`, preserves the
component multiset. -/
theorem allComps_surgery :
    ∀ (l : List MEntry) (i j : Nat) (x : MEntry), i < j → j < l.length →
      List.Perm (entryComps x)
        (entryComps (l.getD i dEntry) ++ entryComps (l.getD j dEntry)) →
      List.Perm (allComps ((l.set i x).eraseIdx j)) (allComps l) := by
  intro l
  induction l with
  | nil => intro i j x hij hj hx; simp at hj
  | cons a t ih =>
      intro i j x hij hj hx
      cases i with
      | zero =>
          cases j with
          | zero => omega
          | succ j =>
              have hj2 : j < t.length := by simpa using hj
              simp only [List.getD_cons_zero, List.getD_cons_succ] at hx
              simp only [List.set_cons_zero, List.eraseIdx_cons_succ,
                allComps_cons]
              refine (hx.append_right (allComps (t.eraseIdx j))).trans ?_
              rw [List.append_assoc]
              exact (allComps_extract t j hj2).symm.append_left
                (entryComps a)
      | succ i =>
          cases j with
          | zero => omega
          | succ j =>
              have hj2 : j < t.length := by simpa using hj
              simp only [List.getD_cons_succ] at hx
              simp only [List.set_cons_succ, List.eraseIdx_cons_succ,
                allComps_cons]
              exact (ih i j x (by omega) hj2 hx).append_left (entryComps a)

/-- The inner loop preserves the (component, strand) multiset. -/
theorem innerIM_perm_aux (node_d : Nat → Option Itv) (merge5 : Bool) :
    ∀ (n : Nat) (recs : List MEntry) (i j : Nat) (out : List MEntry),
      recs.length - j ≤ n → i < j →
      innerIM node_d merge5 recs i j = .ok out →
      List.Perm (allComps out) (allComps recs) := by
  intro n
  induction n with
  | zero =>
      intro recs i j out h hij hok
      rw [innerIM, dif_neg (by omega : ¬ j < recs.length)] at hok
      cases hok
      exact List.Perm.refl _
  | succ n ih =>
      intro recs i j out h hij hok
      rw [innerIM] at hok
      by_cases hj : j < recs.length
      · rw [dif_pos hj] at hok
        by_cases hs : (recs.getD i dEntry).2.1 ≠ (recs.getD j dEntry).2.1
        · rw [if_pos hs] at hok; cases hok; exact List.Perm.refl _
        · rw [if_neg hs] at hok
          split at hok
          next a b heqa heqb =>
            by_cases hab : a < b
            · rw [if_pos hab] at hok; cases hok; exact List.Perm.refl _
            · rw [if_neg hab] at hok
              split at hok
              next e heqc => simp at hok
              next m3 heqc =>
                have hlen : ((recs.set i ((recs.getD i dEntry).1 ++ "," ++
                      (recs.getD j dEntry).1,
                    (recs.getD i dEntry).2.1, m3.getD [])).eraseIdx j).length =
                    recs.length - 1 := by
                  rw [List.length_eraseIdx]
                  simp only [List.length_set]
                  split <;> omega
                refine (ih _ i j out (by omega) hij hok).trans ?_
                refine allComps_surgery recs i j _ hij hj ?_
                rw [entryComps_merge (recs.getD i dEntry) (recs.getD j dEntry)
                  (m3.getD []) (not_not.mp hs)]
              next snd heqc =>
                exact ih recs i (j + 1) out (by omega) (by omega) hok
          next => simp at hok
      · rw [dif_neg hj] at hok; cases hok; exact List.Perm.refl _

/-- Fuel-free form of `innerIM_perm_aux`. -/
theorem innerIM_perm (node_d : Nat → Option Itv) (merge5 : Bool)
    (recs : List MEntry) (i j : Nat) (out : List MEntry) (hij : i < j)
    (hok : innerIM node_d merge5 recs i j = .ok out) :
    List.Perm (allComps out) (allComps recs) :=
  innerIM_perm_aux node_d merge5 recs.length recs i j out (by omega) hij hok

/-- The outer loop preserves the (component, strand) multiset. -/
theorem outerIM_perm_aux (node_d : Nat → Option Itv) (merge5 : Bool) :
    ∀ (n : Nat) (recs : List MEntry) (i : Nat) (out : List MEntry),
      recs.length - i ≤ n → outerIM node_d merge5 recs i = .ok out →
      List.Perm (allComps out) (allComps recs) := by
  intro n
  induction n with
  | zero =>
      intro recs i out h hok
      rw [outerIM, if_neg (by omega : ¬ i < recs.length - 1)] at hok
      cases hok
      exact List.Perm.refl _
  | succ n ih =>
      intro recs i out h hok
      rw [outerIM] at hok
      by_cases hi : i < recs.length - 1
      · rw [if_pos hi] at hok
        split at hok
        next e heq => simp at hok
        next recs2 heq =>
          have h1 := innerIM_perm node_d merge5 recs i (i + 1) recs2
            (by omega) heq
          have hl := innerIM_length_le node_d merge5 recs i (i + 1) recs2 heq
          exact (ih recs2 (i + 1) out (by omega) hok).trans h1
      · rw [if_neg hi] at hok; cases hok; exact List.Perm.refl _

/-- Fuel-free form of `outerIM_perm_aux`. -/
theorem outerIM_perm (node_d : Nat → Option Itv) (merge5 : Bool)
    (recs : List MEntry) (i : Nat) (out : List MEntry)
    (hok : outerIM node_d merge5 recs i = .ok out) :
    List.Perm (allComps out) (allComps recs) :=
  outerIM_perm_aux node_d merge5 recs.length recs i out (by omega) hok

/-- On comma-free ids every entry is its own single component. -/
theorem allComps_no_comma :
    ∀ recs : List MEntry, (∀ e ∈ recs, ',' ∉ e.1.data) →
      allComps recs = recs.map (fun e => (e.1, e.2.1)) := by
  intro recs
  induction recs with
  | nil => intro h; rfl
  | cons a t ih =>
      intro h
      rw [allComps_cons, ih (fun e he => h e (List.mem_cons_of_mem a he))]
      have ha : ',' ∉ a.1.data := h a (List.mem_cons_self a t)
      unfold entryComps
      rw [splitCommaAux_no_comma a.1.data [] ha]
      simp [stringMkData]

/-- C10 counterexample: an input id that itself contains a comma is not a
comma-separated component of any output entry, even though the call
succeeds and returns the entry unchanged: on the single-entry list
`[("a,b", '+', [1])]` the output id splits into components `"a"` and
`"b"`, so the input id `"a,b"` appears as a component of zero output
entries, refuting the per-id containment claim for arbitrary ids. -/
theorem C10_counterexample :
    iterative_merge_transcripts [("a,b", '+', [1])] (fun _ => none) true =
      .ok [("a,b", '+', [1])] ∧
    ("a,b", '+') ∉ allComps [("a,b", '+', [1])] ∧
    allComps [("a,b", '+', [1])] = [("a", '+'), ("b", '+')] := by
  refine ⟨?_, by decide, by decide⟩
  rw [iterative_merge_transcripts, if_pos (by decide)]
  rw [show List.insertionSort entryKeyLe [(("a,b" : String), '+', ([1] : List Int))] =
      [("a,b", '+', [1])] from rfl]
  rw [outerIM, if_neg (by decide : ¬ (0 : Nat) < ([(("a,b" : String), '+',
    ([1] : List Int))] : List MEntry).length - 1)]

/-- C10: when every input id is comma-free, `iterative_merge_transcripts`
preserves read identifiers in the multiset sense: whenever the call
returns a list (rather than raising), the multiset of (comma-separated id
component, entry strand) pairs over the output equals the multiset of
(id, strand) pairs over the input — no id is lost or duplicated, and each
id's component keeps the strand of its input entry, every merge being
between entries of equal strand.  (For pairwise-distinct input ids this
gives the claim's form: each input id occurs as a component of exactly
one output entry.)  The claim fails for ids that themselves contain
commas, see the counterexample. -/
theorem C10_ids_preserved (result_list : List MEntry)
    (node_d : Nat → Option Itv) (merge5 : Bool) (out : List MEntry)
    (hcf : ∀ e ∈ result_list, ',' ∉ e.1.data)
    (hok : iterative_merge_transcripts result_list node_d merge5 = .ok out) :
    (↑(allComps out) : Multiset (String × Char)) =
      ↑(result_list.map (fun e => (e.1, e.2.1))) := by
  rw [Multiset.coe_eq_coe]
  unfold iterative_merge_transcripts at hok
  by_cases hall : result_list.all (fun e => !(nonzeroIdx e.2.2).isEmpty)
  · rw [if_pos hall] at hok
    have h1 := outerIM_perm node_d merge5
      (List.insertionSort entryKeyLe result_list) 0 out hok
    have h2 : List.Perm
        (allComps (List.insertionSort entryKeyLe result_list))
        (allComps result_list) :=
      ((List.perm_insertionSort entryKeyLe result_list).map
        entryComps).flatten
    have h3 := h1.trans h2
    rw [allComps_no_comma result_list hcf] at h3
    exact h3
  · rw [if_neg hall] at hok
    exact absurd hok (by simp)

/-- Witness for C10 at a concrete two-entry input (opposite strands, so
the pair is left unmerged). -/
theorem C10_ids_preserved_witness :
    (∀ e ∈ ([("x", '+', [1]), ("y", '-', [1])] : List MEntry),
      ',' ∉ e.1.data) ∧
    (↑(allComps [("x", '+', [1]), ("y", '-', [1])]) :
        Multiset (String × Char)) =
      ↑(([("x", '+', [1]), ("y", '-', [1])] : List MEntry).map
        (fun e => (e.1, e.2.1))) :=
  ⟨by decide,
    C10_ids_preserved [("x", '+', [1]), ("y", '-', [1])] (fun _ => none)
      true [("x", '+', [1]), ("y", '-', [1])] (by decide)
      (by
        rw [iterative_merge_transcripts, if_pos (by decide)]
        rw [show List.insertionSort entryKeyLe
            ([("x", '+', [1]), ("y", '-', [1])] : List MEntry) =
            [("x", '+', [1]), ("y", '-', [1])] from rfl]
        rw [outerIM, if_pos (by decide : (0 : Nat) <
          ([("x", '+', [1]), ("y", '-', [1])] : List MEntry).length - 1)]
        rw [show innerIM (fun _ => none) true
            ([("x", '+', [1]), ("y", '-', [1])] : List MEntry) 0 1 =
            .ok [("x", '+', [1]), ("y", '-', [1])] from by
          rw [innerIM, dif_pos (by decide : (1 : Nat) <
            ([("x", '+', [1]), ("y", '-', [1])] : List MEntry).length)]
          rw [if_pos (by decide)]]
        show outerIM (fun _ => none) true
          ([("x", '+', [1]), ("y", '-', [1])] : List MEntry) 1 =
          .ok [("x", '+', [1]), ("y", '-', [1])]
        rw [outerIM, if_neg (by decide : ¬ (1 : Nat) <
          ([("x", '+', [1]), ("y", '-', [1])] : List MEntry).length - 1)])⟩

end PbTranscript
